import Mathlib

/-!
Verification of the SocialGraph in-memory graph engine.

This file gives a shallow embedding of `SocialGraph.cpp` / `SocialGraph.h`:
a social network stored as an ordered list of people (`nodes`, each a `Node`
holding only a name, so a node is represented here by its name `String`) and
an ordered list of friendship edges (`edgeList`, each an ordered pair of
names whose `connects` test is order-independent).  All member functions of
the class are translated below, and the theorems settle the specified
behaviour of the mutators, the BFS shortest-path routines, the
mutual-friend recommendation ranking, and the textual save/load format.

Modelling conventions:
  * `std::vector<Node> nodes` becomes `nodes : List String` (a `Node` is a
    name, `operator==` compares names).
  * `std::vector<Edge> edgeList` becomes `edgeList : List (String × String)`
    (an `Edge` stores `firstNode` and `secondNode` in construction order).
  * The `int`-indexed BFS arrays `parent` / `distance` / `visited` (of size
    `nodes.size()`) become total functions `Nat → Option Nat` resp.
    `Nat → Bool`; the sentinel `-1` of `parent`, and the sentinel `INT_MAX`
    of `distance`, become `none`.  All indices the loops ever read are
    produced by scans over `nodes`, hence in range.
  * The `while (!q.empty() && !found)` loops are given explicit fuel
    `2 * nodes.length + 1`.  Each iteration pops one queue entry and every
    enqueue marks a previously unmarked index of `nodes`, so the quantity
    `queue.length + 2 * (number of unmarked indices)` strictly decreases;
    the fuel is an upper bound for it, so the fuel never runs out (this is
    proved where the theorems need it).  Likewise the parent-chain
    reconstruction loop runs at most `nodes.length` steps because recorded
    parents strictly decrease the BFS distance.
-/

/-- The `SocialGraph` class: people in insertion order and friendship
edges in insertion order. -/
structure SocialGraph where
  nodes : List String
  edgeList : List (String × String)
deriving DecidableEq, Repr

namespace SocialGraph

/-- A default-constructed `SocialGraph`: no people, no friendships. -/
def emptyGraph : SocialGraph := ⟨[], []⟩

/-- `Edge::connects(a, b)`: true iff the edge joins `a` and `b` in either
order. -/
def connectsB (e : String × String) (a b : String) : Bool :=
  (e.1 = a && e.2 = b) || (e.1 = b && e.2 = a)

/-- `SocialGraph::nodeExists`: `std::find` over `nodes`. -/
def nodeExists (g : SocialGraph) (n : String) : Bool :=
  g.nodes.contains n

/-- `SocialGraph::addPerson`: append the name unless already present. -/
def addPerson (g : SocialGraph) (name : String) : SocialGraph :=
  if nodeExists g name then g
  else { g with nodes := g.nodes ++ [name] }

/-- `SocialGraph::removePerson`: if absent return `false` and leave the
graph alone; otherwise drop every edge touching the name, drop the node,
and return `true`.  (`std::remove` erases every equal element, hence the
filters.) -/
def removePerson (g : SocialGraph) (name : String) : Bool × SocialGraph :=
  if nodeExists g name then
    (true,
      { nodes := g.nodes.filter (fun x => !(x = name)),
        edgeList := g.edgeList.filter
          (fun e => !(e.1 = name || e.2 = name)) })
  else (false, g)

/-- `SocialGraph::addFriend`: push a new edge `(name1, name2)` only when
both people exist, the names differ, and no edge already connects them. -/
def addFriend (g : SocialGraph) (name1 name2 : String) : SocialGraph :=
  if nodeExists g name1 && nodeExists g name2 && !(name1 = name2) then
    if g.edgeList.any (fun e => connectsB e name1 name2) then g
    else { g with edgeList := g.edgeList ++ [(name1, name2)] }
  else g

/-- `SocialGraph::removeFriend`: filter out every edge connecting the two
names. -/
def removeFriend (g : SocialGraph) (name1 name2 : String) : SocialGraph :=
  { g with edgeList := g.edgeList.filter (fun e => !(connectsB e name1 name2)) }

/-- `SocialGraph::areConnected`: linear scan of `edgeList`. -/
def areConnected (g : SocialGraph) (name1 name2 : String) : Bool :=
  g.edgeList.any (fun e => connectsB e name1 name2)

/-- `SocialGraph::getFriends`: walk `edgeList` in order; an edge whose
first endpoint is `node` contributes its second endpoint, else an edge
whose second endpoint is `node` contributes its first. -/
def getFriends (g : SocialGraph) (node : String) : List String :=
  g.edgeList.filterMap (fun e =>
    if e.1 = node then some e.2
    else if e.2 = node then some e.1
    else none)

/-- `SocialGraph::countMutualFriends`: for each friend of `a`, add one if
it also occurs among the friends of `b` (the inner loop breaks after the
first hit, so each friend of `a` is counted at most once). -/
def countMutualFriends (g : SocialGraph) (a b : String) : Nat :=
  ((getFriends g a).filter (fun f => f ∈ getFriends g b)).length

/-- Stable insertion of a scored candidate into a list sorted by count
descending: the new entry goes after every entry with a count `≥` its
own. -/
def insertDesc (p : String × Nat) : List (String × Nat) → List (String × Nat)
  | [] => [p]
  | q :: qs => if p.2 ≤ q.2 then q :: insertDesc p qs else p :: q :: qs

/-- Sorting of the candidate list by mutual-friend count descending.
`SocialGraph::recommendFriends` calls `std::sort` with the comparator
`a.second > b.second`; `std::sort` leaves the relative order of
equal-count entries unspecified, and this model commits to the stable
order (equal counts keep their insertion order).  Every theorem below that
evaluates `recommendFriends` does so on candidate lists without equal
counts, where every comparison sort agrees with this one. -/
def sortDesc : List (String × Nat) → List (String × Nat)
  | [] => []
  | p :: ps => insertDesc p (sortDesc ps)

/-- `SocialGraph::recommendFriends`.  `k` is a C++ `int`; the truncation
bound is computed by `k < potentialFriends.size()`, a comparison between
`int` and `size_t` in which `k` is converted to the unsigned 64-bit value
`k mod 2^64`, modelled by `(k % 2^64).toNat`. -/
def recommendFriends (g : SocialGraph) (name : String) (k : Int) : List String :=
  if nodeExists g name then
    let currentFriends := getFriends g name
    let potentialFriends := g.nodes.filterMap (fun node =>
      if node = name then none
      else if node ∈ currentFriends then none
      else
        let mutualCount := countMutualFriends g name node
        if 0 < mutualCount then some (node, mutualCount) else none)
    let sorted := sortDesc potentialFriends
    let uk : Nat := (k % (2 ^ 64 : Int)).toNat
    let limit := if uk < sorted.length then uk else sorted.length
    (sorted.take limit).map Prod.fst
  else []

/-- State of the BFS loop of `SocialGraph::shortestPath`: the `parent` and
`distance` vectors (functions from node index; `none` stands for the `-1`
resp. `INT_MAX` sentinel) and the `std::queue<int>` (front = list head). -/
structure BfsState where
  par : Nat → Option Nat
  dst : Nat → Option Nat
  queue : List Nat

/-- Body of the neighbor loop of `shortestPath`: resolve the neighbor name
to its first index in `nodes` (the inner `for (j ...)` scan; under the
store invariant every neighbor resolves — an unresolved neighbor would
make the C++ read `distance[-1]`), and if that index is still at
`INT_MAX`, record distance and parent and enqueue it. -/
def visitNeighbor (nodes : List String) (current : Nat) (st : BfsState)
    (nb : String) : BfsState :=
  match nodes.findIdx? (fun x => x = nb) with
  | none => st
  | some ni =>
    if st.dst ni = none then
      { par := fun j => if j = ni then some current else st.par j,
        dst := fun j => if j = ni then some ((st.dst current).getD 0 + 1)
                        else st.dst j,
        queue := st.queue ++ [ni] }
    else st

/-- The `while (!q.empty() && !found)` loop of `shortestPath`, with fuel
(see the header comment).  `some st` is the `found` exit with the state
holding the parent vector; `none` is the queue running empty. -/
def bfsLoop (g : SocialGraph) (endIdx : Nat) : Nat → BfsState → Option BfsState
  | 0, _ => none
  | fuel + 1, st =>
    match st.queue with
    | [] => none
    | current :: rest =>
      if current = endIdx then some st
      else
        let st1 := (getFriends g (g.nodes.getD current "")).foldl
          (visitNeighbor g.nodes current) { st with queue := rest }
        bfsLoop g endIdx fuel st1

/-- Path reconstruction of `shortestPath`: follow parent pointers from `v`
until the `-1` sentinel, then reverse (modelled directly as building in
forward order).  The C++ loop has no bound; recorded parents strictly
decrease the BFS distance, so `nodes.length` steps of fuel suffice (proved
where used). -/
def rebuild (par : Nat → Option Nat) : Nat → Nat → List Nat
  | 0, v => [v]
  | fuel + 1, v =>
    match par v with
    | none => [v]
    | some p => rebuild par fuel p ++ [v]

/-- `SocialGraph::shortestPath`: BFS from `from` to `to` over node
indices, returning the name sequence of the reconstructed path, or `[]`
when an endpoint is unknown or the queue runs empty. -/
def shortestPath (g : SocialGraph) (fr tgt : String) : List String :=
  if nodeExists g fr && nodeExists g tgt then
    match g.nodes.findIdx? (fun x => x = fr),
          g.nodes.findIdx? (fun x => x = tgt) with
    | some startIdx, some endIdx =>
      let st0 : BfsState :=
        { par := fun _ => none,
          dst := fun j => if j = startIdx then some 0 else none,
          queue := [startIdx] }
      match bfsLoop g endIdx (2 * g.nodes.length + 1) st0 with
      | none => []
      | some st =>
        (rebuild st.par g.nodes.length endIdx).map (fun i => g.nodes.getD i "")
    | _, _ => []
  else []

/-- State of the BFS loop of `SocialGraph::shortestPathAvoiding`: a
`visited` flag vector instead of the distance vector. -/
structure AvoidState where
  par : Nat → Option Nat
  visited : Nat → Bool
  queue : List Nat

/-- Body of the neighbor loop of `shortestPathAvoiding`: resolve the
neighbor to its first index, skip it when blacklisted or already visited,
otherwise mark, record parent and enqueue. -/
def visitAvoid (nodes : List String) (blIdx : List Nat) (current : Nat)
    (st : AvoidState) (nb : String) : AvoidState :=
  match nodes.findIdx? (fun x => x = nb) with
  | none => st
  | some ni =>
    if !(ni ∈ blIdx) && !(st.visited ni) then
      { par := fun j => if j = ni then some current else st.par j,
        visited := fun j => if j = ni then true else st.visited j,
        queue := st.queue ++ [ni] }
    else st

/-- The BFS loop of `shortestPathAvoiding`, with fuel as in `bfsLoop`. -/
def avoidLoop (g : SocialGraph) (blIdx : List Nat) (endIdx : Nat) :
    Nat → AvoidState → Option AvoidState
  | 0, _ => none
  | fuel + 1, st =>
    match st.queue with
    | [] => none
    | current :: rest =>
      if current = endIdx then some st
      else
        let st1 := (getFriends g (g.nodes.getD current "")).foldl
          (visitAvoid g.nodes blIdx current) { st with queue := rest }
        avoidLoop g blIdx endIdx fuel st1

/-- `SocialGraph::shortestPathAvoiding`: the blacklist is first resolved
to node indices (unknown names contribute nothing), then BFS runs with
the start enqueued unconditionally and only neighbors tested against the
blacklist. -/
def shortestPathAvoiding (g : SocialGraph) (fr tgt : String)
    (blacklist : List String) : List String :=
  if nodeExists g fr && nodeExists g tgt then
    match g.nodes.findIdx? (fun x => x = fr),
          g.nodes.findIdx? (fun x => x = tgt) with
    | some startIdx, some endIdx =>
      let blIdx : List Nat :=
        blacklist.filterMap (fun name => g.nodes.findIdx? (fun x => x = name))
      let st0 : AvoidState :=
        { par := fun _ => none,
          visited := fun j => j = startIdx,
          queue := [startIdx] }
      match avoidLoop g blIdx endIdx (2 * g.nodes.length + 1) st0 with
      | none => []
      | some st =>
        (rebuild st.par g.nodes.length endIdx).map (fun i => g.nodes.getD i "")
    | _, _ => []
  else []

/-- Structural invariant of the store (spec §3): person names are unique,
every edge joins two distinct people that are present, and no two edges
connect the same unordered pair (the pairwise clause reuses the very test
`addFriend` performs). -/
def WF (g : SocialGraph) : Prop :=
  g.nodes.Nodup ∧
  (∀ e ∈ g.edgeList, e.1 ∈ g.nodes ∧ e.2 ∈ g.nodes ∧ e.1 ≠ e.2) ∧
  g.edgeList.Pairwise (fun e f => connectsB e f.1 f.2 = false)

/-- The graph states produced by some sequence of the four mutators
starting from a default-constructed store. -/
inductive Reachable : SocialGraph → Prop
  | base : Reachable emptyGraph
  | addP (g n) : Reachable g → Reachable (addPerson g n)
  | remP (g n) : Reachable g → Reachable (removePerson g n).2
  | addF (g a b) : Reachable g → Reachable (addFriend g a b)
  | remF (g a b) : Reachable g → Reachable (removeFriend g a b)

/-- A path in the sense of the spec (§4.3): a nonempty name sequence that
starts at `a`, ends at `b`, and whose consecutive names are joined by a
friendship. -/
def IsPathSeq (g : SocialGraph) (a b : String) (l : List String) : Prop :=
  l ≠ [] ∧ l.head? = some a ∧ l.getLast? = some b ∧
    List.Chain' (fun x y => areConnected g x y = true) l

/-- Walks from `s` counted by number of edges, used internally by the BFS
correctness proof. -/
inductive Walk (g : SocialGraph) (s : String) : String → Nat → Prop
  | nil : Walk g s s 0
  | cons {x y m} : Walk g s x m → areConnected g x y = true → Walk g s y (m + 1)

/-- State of the specification-level BFS on names: parent pointers,
discovery distances and the queue. -/
structure NameState where
  par : String → Option String
  dst : String → Option Nat
  queue : List String

/-- Specification-level discovery step: an undiscovered neighbor `m` of
the current name `c` gets distance, parent and a place at the back of the
queue. -/
def visitName (c : String) (st : NameState) (m : String) : NameState :=
  if st.dst m = none then
    { par := fun y => if y = m then some c else st.par y,
      dst := fun y => if y = m then some ((st.dst c).getD 0 + 1) else st.dst y,
      queue := st.queue ++ [m] }
  else st

/-- Specification-level BFS loop on names, parameterized by the neighbor
enumeration `neigh` and fueled like `bfsLoop`. -/
def nameLoop (neigh : String → List String) (tgt : String) :
    Nat → NameState → Option NameState
  | 0, _ => none
  | fuel + 1, st =>
    match st.queue with
    | [] => none
    | c :: rest =>
      if c = tgt then some st
      else nameLoop neigh tgt fuel
        ((neigh c).foldl (visitName c) { st with queue := rest })

/-- Parent-chain reconstruction on names. -/
def rebuildName (par : String → Option String) : Nat → String → List String
  | 0, v => [v]
  | fuel + 1, v =>
    match par v with
    | none => [v]
    | some p => rebuildName par fuel p ++ [v]

/-- The BFS shortest-path search as the spec words it (§4.3): standard
BFS from `fr`, each person visited at most once, parent pointers recorded,
neighbors expanded in the order `neigh` lists them; empty result for
unknown endpoints or when the queue empties without reaching `tgt`. -/
def bfsSearch (neigh : SocialGraph → String → List String)
    (g : SocialGraph) (fr tgt : String) : List String :=
  if fr ∈ g.nodes ∧ tgt ∈ g.nodes then
    match nameLoop (neigh g) tgt (2 * g.nodes.length + 1)
        ⟨fun _ => none, fun y => if y = fr then some 0 else none, [fr]⟩ with
    | none => []
    | some st => rebuildName st.par g.nodes.length tgt
  else []

/-- Discovery distance of a name, defaulting to 0 (only read on
discovered names). -/
def dv (st : NameState) (x : String) : Nat := (st.dst x).getD 0

/-- Correspondence between the index-based BFS state of the code and the
name-based state of the specification search, along the bijection between
in-range indices and names given by a duplicate-free `nodes` list. -/
def IdxRel (g : SocialGraph) (stI : BfsState) (stN : NameState) : Prop :=
  stN.queue = stI.queue.map (fun i => g.nodes.getD i "") ∧
  (∀ i ∈ stI.queue, i < g.nodes.length) ∧
  (∀ i, i < g.nodes.length → stI.dst i = stN.dst (g.nodes.getD i "")) ∧
  (∀ i, i < g.nodes.length →
    (stI.par i).map (fun p => g.nodes.getD p "") = stN.par (g.nodes.getD i "")) ∧
  (∀ i p, stI.par i = some p → p < g.nodes.length)

/-- Fuel measure of the BFS loop: queue length plus twice the number of
undiscovered store names.  Popping costs one, and every enqueue marks a
previously undiscovered store name, so one loop iteration strictly
decreases it. -/
def nameMeasure (g : SocialGraph) (st : NameState) : Nat :=
  st.queue.length + 2 * (g.nodes.filter (fun x => st.dst x = none)).length

/-- Loop invariant of the specification-level BFS from `s` towards `tgt`
over neighbor enumeration `neigh`.  `dst` records exact BFS distances,
parents step back one distance level along an edge, the queue holds the
discovered-but-unprocessed names sorted by distance spanning at most two
levels, processed names have all neighbors discovered, and a discovered
target is still queued (the loop stops when it pops it). -/
structure BfsInv (g : SocialGraph) (neigh : String → List String)
    (s tgt : String) (st : NameState) : Prop where
  dzero : st.dst s = some 0
  dzero_only : ∀ x, st.dst x = some 0 → x = s
  qdisc : ∀ x ∈ st.queue, st.dst x ≠ none
  dnodes : ∀ x, st.dst x ≠ none → x ∈ g.nodes
  parNone : st.par s = none
  parSome : ∀ x, ¬x = s → st.dst x ≠ none → st.par x ≠ none
  parRel : ∀ x p, st.par x = some p → ∃ d, st.dst p = some d ∧
    st.dst x = some (d + 1) ∧ areConnected g p x = true
  sound : ∀ x d, st.dst x = some d → Walk g s x d
  minim : ∀ x d, st.dst x = some d → ∀ m, Walk g s x m → d ≤ m
  qsorted : st.queue.Pairwise (fun a b => dv st a ≤ dv st b)
  qspread : ∀ a ∈ st.queue, ∀ b ∈ st.queue, dv st b ≤ dv st a + 1
  closed : ∀ x, st.dst x ≠ none → x ∉ st.queue → ∀ m ∈ neigh x, st.dst m ≠ none
  tq : st.dst tgt ≠ none → tgt ∈ st.queue

/-- Invariant holding while the neighbors of the popped name `c` (at
distance `dc`) are being processed: like `BfsInv` but with the closedness
clause excusing `c`, and with the two-level queue property anchored at
`dc`. -/
structure MidInv (g : SocialGraph) (neigh : String → List String)
    (s tgt c : String) (dc : Nat) (st : NameState) : Prop where
  dzero : st.dst s = some 0
  dzero_only : ∀ x, st.dst x = some 0 → x = s
  qdisc : ∀ x ∈ st.queue, st.dst x ≠ none
  dnodes : ∀ x, st.dst x ≠ none → x ∈ g.nodes
  parNone : st.par s = none
  parSome : ∀ x, ¬x = s → st.dst x ≠ none → st.par x ≠ none
  parRel : ∀ x p, st.par x = some p → ∃ d, st.dst p = some d ∧
    st.dst x = some (d + 1) ∧ areConnected g p x = true
  sound : ∀ x d, st.dst x = some d → Walk g s x d
  minim : ∀ x d, st.dst x = some d → ∀ m, Walk g s x m → d ≤ m
  qsorted : st.queue.Pairwise (fun a b => dv st a ≤ dv st b)
  qlo : ∀ a ∈ st.queue, dc ≤ dv st a
  qhi : ∀ a ∈ st.queue, dv st a ≤ dc + 1
  cdisc : st.dst c = some dc
  closedX : ∀ x, st.dst x ≠ none → x ∉ st.queue → ¬x = c →
    ∀ m ∈ neigh x, st.dst m ≠ none
  tq : st.dst tgt ≠ none → tgt ∈ st.queue

/-- Neighbor enumeration in the Graph Store's Person iteration order, as
claim C4 words the tie-break: the people adjacent to `c`, listed in
`nodes` (insertion) order. -/
def personOrderNeighbors (g : SocialGraph) (c : String) : List String :=
  g.nodes.filter (fun m => areConnected g c m)

/-- The shortest-path search the C4 claim describes: BFS whose neighbor
expansion at each step follows Person insertion order. -/
def shortestPathPersonOrder (g : SocialGraph) (fr tgt : String) : List String :=
  bfsSearch personOrderNeighbors g fr tgt

/-- The shortest-path search with neighbors expanded in the order
`getFriends` produces them (friendship insertion order). -/
def shortestPathEdgeOrder (g : SocialGraph) (fr tgt : String) : List String :=
  bfsSearch getFriends g fr tgt

/-- Blank characters trimmed around a loaded person name
(`find_first_not_of(" \t")`). -/
def isBlank (c : Char) : Bool := c = ' ' || c = '\t'

/-- Trimming of leading and trailing blanks from a loaded name. -/
def trimBlanks (l : List Char) : List Char :=
  ((l.dropWhile isBlank).reverse.dropWhile isBlank).reverse

/-- The whitespace set of `istringstream >> token` in the classic "C"
locale: space, horizontal tab, line feed, vertical tab, form feed and
carriage return. -/
def isSpaceC (c : Char) : Bool :=
  c = ' ' || c = '\t' || c = '\n' || c = '\x0B' || c = '\x0C' || c = '\r'

/-- Whitespace tokenization, as `istringstream >> token` performs it: skip
whitespace, collect maximal non-whitespace runs (accumulator reversed on
emission). -/
def splitWsAux : List Char → List Char → List (List Char)
  | [], acc => if acc.isEmpty then [] else [acc.reverse]
  | c :: cs, acc =>
    if isSpaceC c then
      if acc.isEmpty then splitWsAux cs []
      else acc.reverse :: splitWsAux cs []
    else splitWsAux cs (c :: acc)

/-- Whitespace tokenization of a line remainder. -/
def splitWs (l : List Char) : List (List Char) := splitWsAux l []

/-- Split of a loaded line at the first `':'` (`line.find(':')` /
`substr`).  When the line has no colon, `find` yields `npos`, which the
code stores into an `int` as `-1`; `substr(0, -1 as size_t)` is then the
whole line and `substr(-1 + 1)` is again the whole line, hence the second
branch. -/
def splitAtColon (l : List Char) : List Char × List Char :=
  if (':' : Char) ∈ l then
    (l.takeWhile (fun c => !(c = ':')), (l.dropWhile (fun c => !(c = ':'))).tail)
  else (l, l)

/-- The source name a loaded line contributes: the trimmed text before
the first colon. -/
def lineSrc (l : List Char) : String :=
  String.mk (trimBlanks (splitAtColon l).1)

/-- Friends joined by single spaces, with no trailing space, as
`saveToFile` writes them. -/
def sepBySpace : List (List Char) → List Char
  | [] => []
  | [t] => t
  | t :: u :: ts => t ++ ' ' :: sepBySpace (u :: ts)

/-- One line of `saveToFile` output for person `n`: the name, `": "`, and
the friends of `n` separated by spaces.  The file is these lines joined by
newlines; `loadFromFile` reads it back with `getline`, so the model works
at line granularity. -/
def saveLine (g : SocialGraph) (n : String) : List Char :=
  n.data ++ ':' :: ' ' :: sepBySpace ((getFriends g n).map String.data)

/-- The whole `saveToFile` output: one line per person, in `nodes`
order. -/
def saveLines (g : SocialGraph) : List (List Char) :=
  g.nodes.map (saveLine g)

/-- Processing of one nonempty line by `loadFromFile`: split at the first
colon, trim the source name, register it, then for every whitespace token
after the colon register the friend and add the undirected friendship. -/
def loadLine (g : SocialGraph) (line : List Char) : SocialGraph :=
  (splitWs (splitAtColon line).2).foldl
    (fun h t => addFriend (addPerson h (String.mk t)) (lineSrc line) (String.mk t))
    (addPerson g (lineSrc line))

/-- `loadFromFile` on a list of lines: previous state is cleared (the fold
starts from the empty store) and empty lines are skipped. -/
def loadLines (lines : List (List Char)) : SocialGraph :=
  lines.foldl (fun g line => if line.isEmpty then g else loadLine g line)
    emptyGraph

/-- A name that survives the textual format: nonempty, no whitespace, no
colon. -/
def goodName (s : String) : Prop :=
  s.data ≠ [] ∧ ∀ c ∈ s.data, isSpaceC c = false ∧ c ≠ ':'

/-- Equality of the unordered pairs `{a, b}` and `{x, y}` componentwise:
the relation `connectsB` establishes between an edge and a queried name
pair. -/
def pairEq (a b x y : String) : Prop :=
  (a = x ∧ b = y) ∨ (a = y ∧ b = x)

instance (g : SocialGraph) : Decidable (WF g) := by
  unfold WF; infer_instance

instance (s : String) : Decidable (goodName s) := by
  unfold goodName; infer_instance

/-! ## Basic lemmas about the store -/

theorem nodeExists_iff (g : SocialGraph) (n : String) :
    nodeExists g n = true ↔ n ∈ g.nodes := by
  simp [nodeExists]

theorem findIdx?_mem_aux (x : String) :
    ∀ (l : List String) (i : Nat), x ∈ l →
      ∃ j, l.findIdx? (fun y => y = x) i = some (i + j) ∧
        j < l.length ∧ l.getD j "" = x := by
  intro l
  induction l with
  | nil => intro i h; cases h
  | cons a l ih =>
    intro i h
    by_cases hax : a = x
    · exact ⟨0, by simp [List.findIdx?_cons, hax], by simp, by simp [hax]⟩
    · have hx : x ∈ l := by
        rcases List.mem_cons.mp h with h | h
        · exact absurd h.symm hax
        · exact h
      obtain ⟨j, hfind, hlt, hget⟩ := ih (i + 1) hx
      refine ⟨j + 1, ?_, by simpa using hlt, by simpa using hget⟩
      simp only [List.findIdx?_cons]
      rw [if_neg (by simpa using hax)]
      rw [hfind]
      congr 1
      omega

theorem findIdx?_mem {l : List String} {x : String} (hx : x ∈ l) :
    ∃ j, l.findIdx? (fun y => y = x) = some j ∧
      j < l.length ∧ l.getD j "" = x := by
  obtain ⟨j, hfind, hlt, hget⟩ := findIdx?_mem_aux x l 0 hx
  exact ⟨j, by simpa using hfind, hlt, hget⟩

theorem rebuild_none {par : Nat → Option Nat} {v : Nat} (h : par v = none) :
    ∀ fuel, rebuild par fuel v = [v] := by
  intro fuel
  cases fuel with
  | zero => rfl
  | succ m => simp [rebuild, h]

/-! ## C10: getFriends lists the opposite endpoints in edge order -/

/-- C10: for every store state and person `p`, `getFriends p` is exactly
the list of opposite endpoints of the edges incident to `p`, taken in
`edgeList` (friendship insertion) order. -/
theorem getFriends_opposite_endpoints_in_edge_order
    (g : SocialGraph) (p : String) :
    getFriends g p =
      (g.edgeList.filter (fun e => e.1 = p || e.2 = p)).map
        (fun e => if e.1 = p then e.2 else e.1) := by
  unfold getFriends
  induction g.edgeList with
  | nil => rfl
  | cons e l ih =>
    by_cases h1 : e.1 = p
    · simp [List.filterMap_cons, List.filter_cons, h1, ih]
    · by_cases h2 : e.2 = p
      · simp [List.filterMap_cons, List.filter_cons, h1, h2, ih]
      · simp [List.filterMap_cons, List.filter_cons, h1, h2, ih]

/-! ## C8: removePerson removes the person and every incident friendship -/

/-- C8: when `p` is present, `removePerson p` reports success, afterwards
`areConnected p q` is false for every `q` and `p` is in nobody's friends
list; when `p` is absent the call reports failure and leaves the store
untouched. -/
theorem removePerson_removes_incident_friendships (g : SocialGraph) (p : String) :
    (p ∈ g.nodes →
      (removePerson g p).1 = true ∧
      (∀ q, areConnected (removePerson g p).2 p q = false) ∧
      (∀ q, p ∉ getFriends (removePerson g p).2 q)) ∧
    (p ∉ g.nodes → removePerson g p = (false, g)) := by
  constructor
  · intro hp
    have hex : nodeExists g p = true := (nodeExists_iff g p).mpr hp
    refine ⟨by simp [removePerson, hex], ?_, ?_⟩
    · intro q
      simp only [removePerson, hex, if_true]
      rw [Bool.eq_false_iff]
      intro hany
      rw [areConnected, List.any_eq_true] at hany
      obtain ⟨e, he, hconn⟩ := hany
      rw [List.mem_filter] at he
      have hnp : ¬(e.1 = p ∨ e.2 = p) := by simpa using he.2
      have : e.1 = p ∨ e.2 = p := by
        rcases (by simpa [connectsB] using hconn :
          (e.1 = p ∧ e.2 = q) ∨ (e.1 = q ∧ e.2 = p)) with h | h
        · exact Or.inl h.1
        · exact Or.inr h.2
      exact hnp this
    · intro q hmem
      simp only [removePerson, hex, if_true] at hmem
      rw [getFriends, List.mem_filterMap] at hmem
      obtain ⟨e, he, hsome⟩ := hmem
      rw [List.mem_filter] at he
      have hnp : ¬(e.1 = p ∨ e.2 = p) := by simpa using he.2
      by_cases h1 : e.1 = q
      · rw [if_pos h1] at hsome
        exact hnp (Or.inr (by simpa using hsome))
      · rw [if_neg h1] at hsome
        by_cases h2 : e.2 = q
        · rw [if_pos h2] at hsome
          exact hnp (Or.inl (by simpa using hsome))
        · rw [if_neg h2] at hsome
          cases hsome
  · intro hp
    have hex : nodeExists g p = false := by
      rw [Bool.eq_false_iff]
      intro h
      exact hp ((nodeExists_iff g p).mp h)
    simp [removePerson, hex]

/-- Closed instance of the `removePerson` theorem at a concrete store. -/
theorem removePerson_removes_incident_friendships_witness :
    (removePerson ⟨["A", "B"], [("A", "B")]⟩ "A").1 = true ∧
    areConnected (removePerson ⟨["A", "B"], [("A", "B")]⟩ "A").2 "A" "B" = false ∧
    "A" ∉ getFriends (removePerson ⟨["A", "B"], [("A", "B")]⟩ "A").2 "B" := by
  have h := (removePerson_removes_incident_friendships
    ⟨["A", "B"], [("A", "B")]⟩ "A").1 (by decide)
  exact ⟨h.1, h.2.1 "B", h.2.2 "B"⟩

/-! ## C6: shortestPath from a person to itself -/

/-- C6: `shortestPath x x` is `[x]` when `x` is present (the BFS pops the
start, which already is the target) and `[]` when it is not. -/
theorem shortestPath_self (g : SocialGraph) (x : String) :
    shortestPath g x x = if x ∈ g.nodes then [x] else [] := by
  by_cases hx : x ∈ g.nodes
  · rw [if_pos hx]
    have hex : nodeExists g x = true := (nodeExists_iff g x).mpr hx
    obtain ⟨s, hfind, hlt, hget⟩ := findIdx?_mem hx
    unfold shortestPath
    rw [hex, hfind]
    simp only [Bool.and_self, if_true, bfsLoop]
    rw [rebuild_none rfl]
    simp only [List.map_cons, List.map_nil, List.cons.injEq, and_true]
    exact hget
  · rw [if_neg hx]
    have hex : nodeExists g x = false := by
      rw [Bool.eq_false_iff]
      exact fun h => hx ((nodeExists_iff g x).mp h)
    unfold shortestPath
    rw [hex]
    simp

/-! ## C1: shortestPathAvoiding does not exclude the start -/

/-- C1: concrete run showing the start is traversed even when
blacklisted.  With people `A`, `B`, the friendship `A-B` and exclusion
set `[A]`, the call returns `[A, B]`: the excluded name `A` appears in
the result and the result is not empty, because the BFS enqueues the
start without consulting the blacklist. -/
theorem shortestPathAvoiding_traverses_excluded_start :
    shortestPathAvoiding ⟨["A", "B"], [("A", "B")]⟩ "A" "B" ["A"] = ["A", "B"] := by
  decide

/-! ## C2: recommendFriends with non-positive k -/

/-- C2: concrete run showing `k = -1` does not yield an empty result.
With friendships `A-B`, `B-C`, the only candidate for `A` is `C`; the
`int`-vs-`size_t` comparison `k < potentialFriends.size()` converts `-1`
to `2^64 - 1`, so the limit becomes the full candidate count and the call
returns `[C]`.  With `k = 0` the result is empty as specified. -/
theorem recommendFriends_negative_k_returns_candidates :
    recommendFriends ⟨["A", "B", "C"], [("A", "B"), ("B", "C")]⟩ "A" (-1) = ["C"] ∧
    recommendFriends ⟨["A", "B", "C"], [("A", "B"), ("B", "C")]⟩ "A" 0 = [] := by
  decide

/-! ## C4: the BFS tie-break order -/

/-- C4 counterexample: on the diamond with people `A, B, C, D` (insertion
order) and friendships inserted as `A-C`, `A-B`, `C-D`, `B-D`, the code
returns the path through `C` (first edge inserted), while expanding
neighbors in Person insertion order would return the path through `B`.
So the returned path is not the one selected by Person-insertion-order
expansion. -/
theorem shortestPath_differs_from_person_order_selection :
    shortestPath ⟨["A", "B", "C", "D"], [("A", "C"), ("A", "B"), ("C", "D"), ("B", "D")]⟩
      "A" "D" = ["A", "C", "D"] ∧
    shortestPathPersonOrder ⟨["A", "B", "C", "D"], [("A", "C"), ("A", "B"), ("C", "D"), ("B", "D")]⟩
      "A" "D" = ["A", "B", "D"] := by
  decide

/-! ## C9: the save/load round trip -/

/-- C9 counterexample: a person name containing a space is split into two
friend tokens when the saved line is parsed back, so connectivity is not
preserved.  With people `"A B"` and `"C"` and the friendship
`C - "A B"`, the reloaded store connects `C` to `A`, which the original
store does not. -/
theorem save_load_changes_connectivity_for_space_name :
    areConnected (loadLines (saveLines ⟨["A B", "C"], [("C", "A B")]⟩)) "C" "A" = true ∧
    areConnected ⟨["A B", "C"], [("C", "A B")]⟩ "C" "A" = false := by
  decide

/-! ## C7: the store invariant is preserved by the mutators -/

theorem wf_addPerson (g : SocialGraph) (n : String) (h : WF g) :
    WF (addPerson g n) := by
  unfold addPerson
  by_cases hex : nodeExists g n = true
  · simpa [hex] using h
  · have hmem : n ∉ g.nodes := fun hm => hex ((nodeExists_iff g n).mpr hm)
    rw [Bool.not_eq_true] at hex
    rw [hex]
    simp only [Bool.false_eq_true, if_false]
    obtain ⟨hnd, hedge, hpw⟩ := h
    refine ⟨?_, ?_, hpw⟩
    · rw [List.nodup_append]
      refine ⟨hnd, List.nodup_singleton n, ?_⟩
      intro a ha han
      rw [List.mem_singleton] at han
      exact hmem (han ▸ ha)
    · intro e he
      obtain ⟨h1, h2, h3⟩ := hedge e he
      exact ⟨List.mem_append_left _ h1, List.mem_append_left _ h2, h3⟩

theorem wf_removePerson (g : SocialGraph) (n : String) (h : WF g) :
    WF (removePerson g n).2 := by
  unfold removePerson
  by_cases hex : nodeExists g n = true
  · rw [hex]
    simp only [if_true]
    obtain ⟨hnd, hedge, hpw⟩ := h
    refine ⟨hnd.filter _, ?_, List.Pairwise.sublist (List.filter_sublist _) hpw⟩
    intro e he
    rw [List.mem_filter] at he
    obtain ⟨hmem, hcond⟩ := he
    have hc : ¬e.1 = n ∧ ¬e.2 = n := by simpa using hcond
    obtain ⟨h1, h2, h3⟩ := hedge e hmem
    refine ⟨?_, ?_, h3⟩
    · rw [List.mem_filter]
      exact ⟨h1, by simpa using hc.1⟩
    · rw [List.mem_filter]
      exact ⟨h2, by simpa using hc.2⟩
  · rw [Bool.not_eq_true] at hex
    rw [hex]
    simpa using h

theorem wf_addFriend (g : SocialGraph) (a b : String) (h : WF g) :
    WF (addFriend g a b) := by
  unfold addFriend
  by_cases hc : (nodeExists g a && nodeExists g b && !(a = b)) = true
  · rw [hc]
    simp only [if_true]
    by_cases hany : g.edgeList.any (fun e => connectsB e a b) = true
    · simpa [hany] using h
    · rw [Bool.not_eq_true] at hany
      rw [hany]
      simp only [Bool.false_eq_true, if_false]
      obtain ⟨hnd, hedge, hpw⟩ := h
      have hab : a ∈ g.nodes ∧ b ∈ g.nodes ∧ ¬a = b := by
        simpa [nodeExists_iff, and_assoc] using hc
      refine ⟨hnd, ?_, ?_⟩
      · intro e he
        rcases List.mem_append.mp he with he | he
        · exact hedge e he
        · rw [List.mem_singleton] at he
          subst he
          exact ⟨hab.1, hab.2.1, hab.2.2⟩
      · rw [List.pairwise_append]
        refine ⟨hpw, List.pairwise_singleton _ _, ?_⟩
        intro e he f hf
        rw [List.mem_singleton] at hf
        subst hf
        simpa using List.any_eq_false.mp hany e he
  · rw [Bool.not_eq_true] at hc
    rw [hc]
    simpa using h

theorem wf_removeFriend (g : SocialGraph) (a b : String) (h : WF g) :
    WF (removeFriend g a b) := by
  obtain ⟨hnd, hedge, hpw⟩ := h
  exact ⟨hnd, fun e he => hedge e (List.mem_filter.mp he).1,
    List.Pairwise.sublist (List.filter_sublist _) hpw⟩

/-- C7: every sequence of mutator calls starting from the empty store
keeps the invariant: person names are unique, no two friendships connect
the same unordered pair, and every friendship joins two distinct present
people. -/
theorem reachable_states_wf (g : SocialGraph) (h : Reachable g) : WF g := by
  induction h with
  | base => decide
  | addP g n _ ih => exact wf_addPerson g n ih
  | remP g n _ ih => exact wf_removePerson g n ih
  | addF g a b _ ih => exact wf_addFriend g a b ih
  | remF g a b _ ih => exact wf_removeFriend g a b ih

/-- Closed instance of the invariant theorem at a concretely built
store. -/
theorem reachable_states_wf_witness :
    WF (addFriend (addPerson (addPerson emptyGraph "A") "B") "A" "B") :=
  reachable_states_wf _ (Reachable.addF _ _ _
    (Reachable.addP _ _ (Reachable.addP _ _ Reachable.base)))

/-! ## Parsing lemmas for the textual format -/

theorem mk_data (s : String) : String.mk s.data = s := rfl

theorem dropWhile_eq_self_of_none {p : Char → Bool} {l : List Char}
    (h : ∀ c ∈ l, p c = false) : l.dropWhile p = l := by
  cases l with
  | nil => rfl
  | cons a l => simp [List.dropWhile_cons, h a (List.mem_cons_self a l)]

theorem trimBlanks_eq_self {l : List Char} (h : ∀ c ∈ l, isBlank c = false) :
    trimBlanks l = l := by
  unfold trimBlanks
  rw [dropWhile_eq_self_of_none h]
  rw [dropWhile_eq_self_of_none (fun c hc => h c (List.mem_reverse.mp hc))]
  exact List.reverse_reverse l

theorem splitWsAux_nil (acc : List Char) :
    splitWsAux [] acc = if acc.isEmpty then [] else [acc.reverse] := rfl

theorem splitWsAux_cons (c : Char) (cs acc : List Char) :
    splitWsAux (c :: cs) acc =
      if isSpaceC c then
        (if acc.isEmpty then splitWsAux cs [] else acc.reverse :: splitWsAux cs [])
      else splitWsAux cs (c :: acc) := rfl

theorem takeWhile_append_colon {n rest : List Char} (h : ∀ c ∈ n, ¬c = ':') :
    (n ++ ':' :: rest).takeWhile (fun c => !(c = ':')) = n := by
  induction n with
  | nil => simp [List.takeWhile_cons]
  | cons a t ih =>
    rw [List.cons_append, List.takeWhile_cons]
    rw [if_pos (show (!decide (a = ':')) = true by
      simp [h a (List.mem_cons_self a t)])]
    rw [ih (fun c hc => h c (List.mem_cons_of_mem a hc))]

theorem dropWhile_append_colon {n rest : List Char} (h : ∀ c ∈ n, ¬c = ':') :
    (n ++ ':' :: rest).dropWhile (fun c => !(c = ':')) = ':' :: rest := by
  induction n with
  | nil => simp [List.dropWhile_cons]
  | cons a t ih =>
    rw [List.cons_append, List.dropWhile_cons]
    rw [if_pos (show (!decide (a = ':')) = true by
      simp [h a (List.mem_cons_self a t)])]
    exact ih (fun c hc => h c (List.mem_cons_of_mem a hc))

theorem splitAtColon_line {n rest : List Char} (h : ∀ c ∈ n, ¬c = ':') :
    splitAtColon (n ++ ':' :: rest) = (n, rest) := by
  unfold splitAtColon
  rw [if_pos (List.mem_append_right n (List.mem_cons_self ':' rest))]
  rw [takeWhile_append_colon h, dropWhile_append_colon h]
  rfl

theorem splitWsAux_no_ws {t : List Char}
    (h : ∀ c ∈ t, isSpaceC c = false) :
    ∀ (r acc : List Char), splitWsAux (t ++ r) acc = splitWsAux r (t.reverse ++ acc) := by
  induction t with
  | nil => intro r acc; simp
  | cons c t ih =>
    intro r acc
    rw [List.cons_append, splitWsAux_cons, h c (List.mem_cons_self c t)]
    simp only [Bool.false_eq_true, if_false]
    rw [ih (fun d hd => h d (List.mem_cons_of_mem c hd)) r (c :: acc)]
    rw [List.reverse_cons, List.append_assoc, List.singleton_append]

theorem splitWsAux_sepBySpace : ∀ (ts : List (List Char)),
    (∀ t ∈ ts, t ≠ [] ∧ ∀ c ∈ t, isSpaceC c = false) →
    splitWsAux (sepBySpace ts) [] = ts := by
  intro ts
  induction ts with
  | nil => intro _; rfl
  | cons t ts ih =>
    intro h
    obtain ⟨hne, hnws⟩ := h t (List.mem_cons_self t ts)
    cases ts with
    | nil =>
      have hsep : sepBySpace [t] = t := rfl
      rw [hsep]
      have ht := splitWsAux_no_ws hnws [] []
      rw [List.append_nil] at ht
      rw [ht, splitWsAux_nil, List.append_nil]
      rw [if_neg (by simpa [List.isEmpty_iff] using hne)]
      rw [List.reverse_reverse]
    | cons u ts2 =>
      have hsep : sepBySpace (t :: u :: ts2) = t ++ ' ' :: sepBySpace (u :: ts2) := rfl
      rw [hsep]
      rw [splitWsAux_no_ws hnws _ []]
      rw [splitWsAux_cons]
      rw [if_pos (by decide : isSpaceC ' ' = true)]
      rw [List.append_nil]
      rw [if_neg (by simpa [List.isEmpty_iff] using hne)]
      rw [List.reverse_reverse]
      rw [ih (fun s hs => h s (List.mem_cons_of_mem t hs))]

theorem goodName_no_blank {s : String} (h : goodName s) :
    ∀ c ∈ s.data, isBlank c = false := by
  intro c hc
  have hws := (h.2 c hc).1
  unfold isBlank
  by_cases h1 : c = ' '
  · subst h1; exact absurd hws (by decide)
  · by_cases h2 : c = '\t'
    · subst h2; exact absurd hws (by decide)
    · simp [h1, h2]

theorem lineSrc_saveLine (g : SocialGraph) (n : String) (hn : goodName n) :
    lineSrc (saveLine g n) = n := by
  unfold lineSrc saveLine
  rw [splitAtColon_line (fun c hc => (hn.2 c hc).2)]
  rw [trimBlanks_eq_self (goodName_no_blank hn)]

theorem tokens_saveLine (g : SocialGraph) (n : String) (hn : goodName n)
    (hf : ∀ f ∈ getFriends g n, goodName f) :
    splitWs (splitAtColon (saveLine g n)).2 = (getFriends g n).map String.data := by
  unfold saveLine
  rw [splitAtColon_line (fun c hc => (hn.2 c hc).2)]
  unfold splitWs
  rw [splitWsAux_cons]
  rw [if_pos (by decide : isSpaceC ' ' = true)]
  rw [if_pos (show ([] : List Char).isEmpty = true from rfl)]
  apply splitWsAux_sepBySpace
  intro t ht
  rw [List.mem_map] at ht
  obtain ⟨f, hfmem, rfl⟩ := ht
  have hg := hf f hfmem
  exact ⟨hg.1, fun c hc => (hg.2 c hc).1⟩

/-! ## Connectivity through loading -/

theorem areConnected_iff (g : SocialGraph) (x y : String) :
    areConnected g x y = true ↔ ∃ e ∈ g.edgeList, pairEq e.1 e.2 x y := by
  simp [areConnected, List.any_eq_true, connectsB, pairEq]

theorem pairEq_flip {a b x y : String} (h : pairEq a b x y) : pairEq b a x y := by
  rcases h with ⟨h1, h2⟩ | ⟨h1, h2⟩
  · exact Or.inr ⟨h2, h1⟩
  · exact Or.inl ⟨h2, h1⟩

theorem pairEq_trans {a b x y u v : String}
    (h1 : pairEq a b x y) (h2 : pairEq x y u v) : pairEq a b u v := by
  rcases h1 with ⟨e1, e2⟩ | ⟨e1, e2⟩ <;> rcases h2 with ⟨f1, f2⟩ | ⟨f1, f2⟩ <;>
    subst e1 <;> subst e2 <;>
    first
      | exact Or.inl ⟨f1, f2⟩
      | exact Or.inr ⟨f1, f2⟩
      | exact Or.inl ⟨f2, f1⟩
      | exact Or.inr ⟨f2, f1⟩

theorem pairEq_swapR {a b x y : String} (h : pairEq a b x y) : pairEq a b y x := by
  rcases h with ⟨h1, h2⟩ | ⟨h1, h2⟩
  · exact Or.inr ⟨h1, h2⟩
  · exact Or.inl ⟨h1, h2⟩

theorem areConnected_congr_pair {a b x y : String} (g : SocialGraph)
    (h : pairEq a b x y) :
    (areConnected g a b = true ↔ areConnected g x y = true) := by
  rw [areConnected_iff, areConnected_iff]
  constructor
  · rintro ⟨e, he, hp⟩
    exact ⟨e, he, pairEq_trans hp h⟩
  · rintro ⟨e, he, hp⟩
    rcases h with ⟨h1, h2⟩ | ⟨h1, h2⟩
    · subst h1; subst h2; exact ⟨e, he, hp⟩
    · subst h1; subst h2; exact ⟨e, he, pairEq_swapR hp⟩

theorem mem_getFriends (g : SocialGraph) (n f : String) :
    f ∈ getFriends g n ↔
      ∃ e ∈ g.edgeList, (e.1 = n ∧ e.2 = f) ∨ (¬e.1 = n ∧ e.2 = n ∧ e.1 = f) := by
  unfold getFriends
  rw [List.mem_filterMap]
  apply exists_congr
  intro e
  apply and_congr_right
  intro _
  by_cases h1 : e.1 = n
  · rw [if_pos h1]
    constructor
    · intro h; exact Or.inl ⟨h1, by injection h⟩
    · rintro (⟨_, h⟩ | ⟨hn1, _, _⟩)
      · rw [h]
      · exact absurd h1 hn1
  · rw [if_neg h1]
    by_cases h2 : e.2 = n
    · rw [if_pos h2]
      constructor
      · intro h; exact Or.inr ⟨h1, h2, by injection h⟩
      · rintro (⟨hn1, _⟩ | ⟨_, _, h⟩)
        · exact absurd hn1 h1
        · rw [h]
    · rw [if_neg h2]
      constructor
      · intro h; cases h
      · rintro (⟨hn1, _⟩ | ⟨_, hn2, _⟩)
        · exact absurd hn1 h1
        · exact absurd hn2 h2

theorem addPerson_edgeList (g : SocialGraph) (s : String) :
    (addPerson g s).edgeList = g.edgeList := by
  unfold addPerson
  split <;> rfl

theorem addPerson_nodes_mono (g : SocialGraph) (s x : String) (h : x ∈ g.nodes) :
    x ∈ (addPerson g s).nodes := by
  unfold addPerson
  split
  · exact h
  · exact List.mem_append_left _ h

theorem addPerson_mem_self (g : SocialGraph) (s : String) :
    s ∈ (addPerson g s).nodes := by
  unfold addPerson
  by_cases h : nodeExists g s = true
  · rw [if_pos h]
    exact (nodeExists_iff g s).mp h
  · rw [Bool.not_eq_true] at h
    simp only [h, Bool.false_eq_true, if_false]
    exact List.mem_append_right _ (List.mem_singleton_self s)

theorem areConnected_addPerson (g : SocialGraph) (s x y : String) :
    areConnected (addPerson g s) x y = areConnected g x y := by
  unfold areConnected
  rw [addPerson_edgeList]

theorem addFriend_nodes (g : SocialGraph) (a b : String) :
    (addFriend g a b).nodes = g.nodes := by
  unfold addFriend
  split
  · split <;> rfl
  · rfl

theorem areConnected_addFriend (g : SocialGraph) (a b x y : String) :
    areConnected (addFriend g a b) x y = true ↔
      areConnected g x y = true ∨
        (a ∈ g.nodes ∧ b ∈ g.nodes ∧ ¬a = b ∧ pairEq a b x y) := by
  unfold addFriend
  by_cases hc : (nodeExists g a && nodeExists g b && !(a = b)) = true
  · have hcond : a ∈ g.nodes ∧ b ∈ g.nodes ∧ ¬a = b := by
      simpa [nodeExists_iff, and_assoc] using hc
    rw [hc]
    simp only [if_true]
    by_cases hany : g.edgeList.any (fun e => connectsB e a b) = true
    · rw [if_pos hany]
      have hab : areConnected g a b = true := hany
      constructor
      · exact Or.inl
      · rintro (h | ⟨_, _, _, hpair⟩)
        · exact h
        · exact (areConnected_congr_pair g hpair).mp hab
    · rw [Bool.not_eq_true] at hany
      simp only [hany, Bool.false_eq_true, if_false]
      show (List.any _ _ = true) ↔ _
      rw [List.any_append]
      simp only [Bool.or_eq_true]
      constructor
      · rintro (h | h)
        · exact Or.inl h
        · refine Or.inr ⟨hcond.1, hcond.2.1, hcond.2.2, ?_⟩
          simpa [connectsB, pairEq] using h
      · rintro (h | ⟨_, _, _, hpair⟩)
        · exact Or.inl h
        · refine Or.inr ?_
          simpa [connectsB, pairEq] using hpair
  · rw [Bool.not_eq_true] at hc
    simp only [hc, Bool.false_eq_true, if_false]
    have hncond : ¬(a ∈ g.nodes ∧ b ∈ g.nodes ∧ ¬a = b) := by
      intro hcond
      have : (nodeExists g a && nodeExists g b && !(a = b)) = true := by
        simp [nodeExists_iff, hcond.1, hcond.2.1, hcond.2.2]
      rw [hc] at this
      cases this
    constructor
    · exact Or.inl
    · rintro (h | ⟨h1, h2, h3, _⟩)
      · exact h
      · exact absurd ⟨h1, h2, h3⟩ hncond

theorem loadTokens_conn (src x y : String) :
    ∀ (ts : List (List Char)) (g0 : SocialGraph), src ∈ g0.nodes →
    (areConnected (ts.foldl
        (fun h t => addFriend (addPerson h (String.mk t)) src (String.mk t)) g0)
        x y = true ↔
      areConnected g0 x y = true ∨
        ∃ t ∈ ts, ¬src = String.mk t ∧ pairEq src (String.mk t) x y) := by
  intro ts
  induction ts with
  | nil => intro g0 _; simp
  | cons t ts ih =>
    intro g0 hsrc
    rw [List.foldl_cons]
    have hsrc1 : src ∈ (addFriend (addPerson g0 (String.mk t)) src (String.mk t)).nodes := by
      rw [addFriend_nodes]
      exact addPerson_nodes_mono _ _ _ hsrc
    rw [ih _ hsrc1]
    rw [areConnected_addFriend, areConnected_addPerson]
    have hmem1 : src ∈ (addPerson g0 (String.mk t)).nodes :=
      addPerson_nodes_mono _ _ _ hsrc
    have hmem2 : String.mk t ∈ (addPerson g0 (String.mk t)).nodes :=
      addPerson_mem_self _ _
    constructor
    · rintro ((h | ⟨_, _, hne, hpair⟩) | ⟨u, hu, hne, hpair⟩)
      · exact Or.inl h
      · exact Or.inr ⟨t, List.mem_cons_self t ts, hne, hpair⟩
      · exact Or.inr ⟨u, List.mem_cons_of_mem t hu, hne, hpair⟩
    · rintro (h | ⟨u, hu, hne, hpair⟩)
      · exact Or.inl (Or.inl h)
      · rcases List.mem_cons.mp hu with rfl | hu2
        · exact Or.inl (Or.inr ⟨hmem1, hmem2, hne, hpair⟩)
        · exact Or.inr ⟨u, hu2, hne, hpair⟩

theorem loadLine_conn (g : SocialGraph) (l : List Char) (x y : String) :
    areConnected (loadLine g l) x y = true ↔
      areConnected g x y = true ∨
        ∃ t ∈ splitWs (splitAtColon l).2,
          ¬lineSrc l = String.mk t ∧ pairEq (lineSrc l) (String.mk t) x y := by
  unfold loadLine
  rw [loadTokens_conn (lineSrc l) x y _ _ (addPerson_mem_self g (lineSrc l))]
  rw [areConnected_addPerson]

theorem loadLinesFold_conn (x y : String) :
    ∀ (lines : List (List Char)) (g0 : SocialGraph),
    (areConnected
        (lines.foldl (fun g l => if l.isEmpty then g else loadLine g l) g0) x y = true ↔
      areConnected g0 x y = true ∨
        ∃ l ∈ lines, l.isEmpty = false ∧
          ∃ t ∈ splitWs (splitAtColon l).2,
            ¬lineSrc l = String.mk t ∧ pairEq (lineSrc l) (String.mk t) x y) := by
  intro lines
  induction lines with
  | nil => intro g0; simp
  | cons l lines ih =>
    intro g0
    rw [List.foldl_cons]
    by_cases hl : l.isEmpty = true
    · rw [if_pos hl]
      rw [ih g0]
      constructor
      · rintro (h | ⟨u, hu, rest⟩)
        · exact Or.inl h
        · exact Or.inr ⟨u, List.mem_cons_of_mem l hu, rest⟩
      · rintro (h | ⟨u, hu, hne, rest⟩)
        · exact Or.inl h
        · rcases List.mem_cons.mp hu with rfl | hu2
          · rw [hl] at hne; cases hne
          · exact Or.inr ⟨u, hu2, hne, rest⟩
    · rw [Bool.not_eq_true] at hl
      simp only [hl, Bool.false_eq_true, if_false]
      rw [ih (loadLine g0 l)]
      rw [loadLine_conn]
      constructor
      · rintro ((h | htok) | ⟨u, hu, rest⟩)
        · exact Or.inl h
        · exact Or.inr ⟨l, List.mem_cons_self l lines, hl, htok⟩
        · exact Or.inr ⟨u, List.mem_cons_of_mem l hu, rest⟩
      · rintro (h | ⟨u, hu, hne, rest⟩)
        · exact Or.inl (Or.inl h)
        · rcases List.mem_cons.mp hu with rfl | hu2
          · exact Or.inl (Or.inr rest)
          · exact Or.inr ⟨u, hu2, hne, rest⟩

theorem getFriends_mem_nodes {g : SocialGraph}
    (hwfE : ∀ e ∈ g.edgeList, e.1 ∈ g.nodes ∧ e.2 ∈ g.nodes ∧ e.1 ≠ e.2)
    {n f : String} (hf : f ∈ getFriends g n) : f ∈ g.nodes := by
  rw [mem_getFriends] at hf
  obtain ⟨e, he, hcase⟩ := hf
  obtain ⟨h1, h2, _⟩ := hwfE e he
  rcases hcase with ⟨_, hef⟩ | ⟨_, _, hef⟩
  · exact hef ▸ h2
  · exact hef ▸ h1

theorem saveLine_not_empty (g : SocialGraph) (n : String) :
    (saveLine g n).isEmpty = false := by
  unfold saveLine
  rw [List.isEmpty_eq_false_iff_exists_mem]
  exact ⟨':', List.mem_append_right _ (List.mem_cons_self ':' _)⟩

theorem loadSave_conn_iff (g : SocialGraph)
    (hgood : ∀ n ∈ g.nodes, goodName n)
    (hwfE : ∀ e ∈ g.edgeList, e.1 ∈ g.nodes ∧ e.2 ∈ g.nodes ∧ e.1 ≠ e.2)
    (x y : String) :
    areConnected (loadLines (saveLines g)) x y = true ↔
      ∃ n ∈ g.nodes, ∃ f ∈ getFriends g n, ¬n = f ∧ pairEq n f x y := by
  unfold loadLines saveLines
  rw [loadLinesFold_conn x y]
  have hempty : areConnected emptyGraph x y = false := rfl
  rw [hempty]
  simp only [Bool.false_eq_true, false_or]
  constructor
  · rintro ⟨l, hl, _, t, ht, hne, hpair⟩
    obtain ⟨n, hn, rfl⟩ := List.mem_map.mp hl
    have hgn := hgood n hn
    have hgf : ∀ f ∈ getFriends g n, goodName f := fun f hf =>
      hgood f (getFriends_mem_nodes hwfE hf)
    rw [lineSrc_saveLine g n hgn] at hne hpair
    rw [tokens_saveLine g n hgn hgf] at ht
    obtain ⟨f, hf, rfl⟩ := List.mem_map.mp ht
    rw [mk_data] at hne hpair
    exact ⟨n, hn, f, hf, hne, hpair⟩
  · rintro ⟨n, hn, f, hf, hne, hpair⟩
    have hgn := hgood n hn
    have hgf : ∀ q ∈ getFriends g n, goodName q := fun q hq =>
      hgood q (getFriends_mem_nodes hwfE hq)
    refine ⟨saveLine g n, List.mem_map_of_mem _ hn, saveLine_not_empty g n,
      f.data, ?_, ?_, ?_⟩
    · rw [tokens_saveLine g n hgn hgf]
      exact List.mem_map_of_mem _ hf
    · rw [lineSrc_saveLine g n hgn, mk_data]
      exact hne
    · rw [lineSrc_saveLine g n hgn, mk_data]
      exact hpair

theorem pairs_iff_areConnected (g : SocialGraph)
    (hwfE : ∀ e ∈ g.edgeList, e.1 ∈ g.nodes ∧ e.2 ∈ g.nodes ∧ e.1 ≠ e.2)
    (x y : String) :
    (∃ n ∈ g.nodes, ∃ f ∈ getFriends g n, ¬n = f ∧ pairEq n f x y) ↔
      areConnected g x y = true := by
  rw [areConnected_iff]
  constructor
  · rintro ⟨n, _, f, hf, _, hpair⟩
    rw [mem_getFriends] at hf
    obtain ⟨e, he, hcase⟩ := hf
    refine ⟨e, he, ?_⟩
    rcases hcase with ⟨h1, h2⟩ | ⟨_, h2, h3⟩
    · rw [h1, h2]; exact hpair
    · rw [h2, h3]; exact pairEq_flip hpair
  · rintro ⟨e, he, hpair⟩
    obtain ⟨h1, _, h3⟩ := hwfE e he
    refine ⟨e.1, h1, e.2, ?_, h3, hpair⟩
    rw [mem_getFriends]
    exact ⟨e, he, Or.inl ⟨rfl, rfl⟩⟩

/-- C9 amended: for stores satisfying the structural invariant whose
names are nonempty and free of whitespace and colons, writing the textual
adjacency format and parsing it back yields a store with identical
connectivity, whatever order friends appear in on a line. -/
theorem save_load_preserves_connectivity (g : SocialGraph) (hwf : WF g)
    (hgood : ∀ n ∈ g.nodes, goodName n) (x y : String) :
    areConnected (loadLines (saveLines g)) x y = areConnected g x y := by
  have h := (loadSave_conn_iff g hgood hwf.2.1 x y).trans
    (pairs_iff_areConnected g hwf.2.1 x y)
  cases hL : areConnected (loadLines (saveLines g)) x y <;>
    cases hR : areConnected g x y <;> simp_all

/-- Closed instance of the round-trip theorem at a concrete store. -/
theorem save_load_preserves_connectivity_witness :
    areConnected (loadLines (saveLines ⟨["A", "B", "C"], [("A", "B")]⟩)) "A" "B" =
      areConnected ⟨["A", "B", "C"], [("A", "B")]⟩ "A" "B" :=
  save_load_preserves_connectivity ⟨["A", "B", "C"], [("A", "B")]⟩
    (by decide) (by decide) "A" "B"

/-! ## Adjacency and walk lemmas -/

theorem mem_getFriends_wf {g : SocialGraph}
    (hwfE : ∀ e ∈ g.edgeList, e.1 ∈ g.nodes ∧ e.2 ∈ g.nodes ∧ e.1 ≠ e.2)
    (n f : String) : f ∈ getFriends g n ↔ areConnected g n f = true := by
  rw [mem_getFriends, areConnected_iff]
  apply exists_congr
  intro e
  apply and_congr_right
  intro he
  have hne := (hwfE e he).2.2
  unfold pairEq
  constructor
  · rintro (⟨h1, h2⟩ | ⟨_, h2, h3⟩)
    · exact Or.inl ⟨h1, h2⟩
    · exact Or.inr ⟨h3, h2⟩
  · rintro (⟨h1, h2⟩ | ⟨h1, h2⟩)
    · exact Or.inl ⟨h1, h2⟩
    · refine Or.inr ⟨?_, h2, h1⟩
      intro h1n
      exact hne (h1n.trans h2.symm)

theorem areConnected_mem_nodes {g : SocialGraph}
    (hwfE : ∀ e ∈ g.edgeList, e.1 ∈ g.nodes ∧ e.2 ∈ g.nodes ∧ e.1 ≠ e.2)
    {x y : String} (h : areConnected g x y = true) :
    x ∈ g.nodes ∧ y ∈ g.nodes := by
  rw [areConnected_iff] at h
  obtain ⟨e, he, hp⟩ := h
  obtain ⟨h1, h2, _⟩ := hwfE e he
  rcases hp with ⟨p1, p2⟩ | ⟨p1, p2⟩
  · exact ⟨p1 ▸ h1, p2 ▸ h2⟩
  · exact ⟨p2 ▸ h2, p1 ▸ h1⟩

theorem walk_cons_front {g : SocialGraph} {a c b : String} {m : Nat}
    (hac : areConnected g a c = true) (w : Walk g c b m) :
    Walk g a b (m + 1) := by
  induction w with
  | nil => exact Walk.cons Walk.nil hac
  | cons _ adj ih => exact Walk.cons ih adj

theorem walk_of_pathSeq {g : SocialGraph} :
    ∀ {l : List String} {a b : String}, IsPathSeq g a b l →
      Walk g a b (l.length - 1) := by
  intro l
  induction l with
  | nil => intro a b h; exact absurd rfl h.1
  | cons u rest ih =>
    intro a b h
    obtain ⟨_, hhead, hlast, hchain⟩ := h
    have hua : u = a := by simpa using hhead
    subst hua
    cases rest with
    | nil =>
      have hb : u = b := by simpa using hlast
      subst hb
      exact Walk.nil
    | cons v rest2 =>
      rw [List.chain'_cons] at hchain
      have hsub : IsPathSeq g v b (v :: rest2) :=
        ⟨by simp, by simp, by simpa using hlast, hchain.2⟩
      have w := walk_cons_front hchain.1 (ih hsub)
      simpa using w

theorem pathSeq_of_walk {g : SocialGraph} {s : String} :
    ∀ {x : String} {m : Nat}, Walk g s x m →
      ∃ l, IsPathSeq g s x l ∧ l.length = m + 1 := by
  intro x m w
  induction w with
  | nil => exact ⟨[s], ⟨by simp, rfl, rfl, List.chain'_singleton s⟩, rfl⟩
  | @cons x2 y m2 _ adj ih =>
    obtain ⟨l, ⟨hne, hh, hl, hc⟩, hlen⟩ := ih
    refine ⟨l ++ [y], ⟨by simp, ?_, ?_, ?_⟩, by simp [hlen]⟩
    · rw [List.head?_append, hh]
      rfl
    · rw [List.getLast?_append]
      rfl
    · rw [List.chain'_append]
      refine ⟨hc, List.chain'_singleton y, ?_⟩
      intro p hp q hq
      have hp2 : x2 = p := by rw [hl] at hp; exact Option.mem_some_iff.mp hp
      have hq2 : y = q := Option.mem_some_iff.mp hq
      subst hp2
      subst hq2
      exact adj

theorem not_nodup_split {α : Type} :
    ∀ {l : List α}, ¬l.Nodup →
      ∃ (x : α) (l1 l2 l3 : List α), l = l1 ++ x :: l2 ++ x :: l3 := by
  intro l
  induction l with
  | nil => intro h; exact absurd List.nodup_nil h
  | cons a l ih =>
    intro h
    by_cases ha : a ∈ l
    · obtain ⟨l2, l3, rfl⟩ := List.append_of_mem ha
      exact ⟨a, [], l2, l3, rfl⟩
    · have hnl : ¬l.Nodup := fun hnd => h (List.nodup_cons.mpr ⟨ha, hnd⟩)
      obtain ⟨x, l1, l2, l3, rfl⟩ := ih hnl
      exact ⟨x, a :: l1, l2, l3, rfl⟩

theorem pathSeq_cut {g : SocialGraph} {a b x : String} {l1 l2 l3 : List String}
    (h : IsPathSeq g a b (l1 ++ x :: l2 ++ x :: l3)) :
    IsPathSeq g a b (l1 ++ x :: l3) := by
  obtain ⟨_, hh, hl, hc⟩ := h
  have hassoc : l1 ++ x :: l2 ++ x :: l3 = l1 ++ ((x :: l2) ++ x :: l3) := by simp
  rw [hassoc] at hh hl hc
  rw [List.head?_append] at hh
  rw [List.getLast?_append] at hl
  rw [List.chain'_append] at hc
  obtain ⟨hc1, hc2, hlink⟩ := hc
  rw [List.chain'_append] at hc2
  obtain ⟨_, hc22, _⟩ := hc2
  refine ⟨by simp, ?_, ?_, ?_⟩
  · rw [List.head?_append]
    cases hl1 : l1.head? with
    | none => rw [hl1] at hh; simpa using hh
    | some u => rw [hl1] at hh; simpa using hh
  · rw [List.getLast?_append]
    have h33 : ((x :: l2) ++ x :: l3).getLast? = (x :: l3).getLast? := by
      rw [List.getLast?_append]
      cases h3 : (x :: l3).getLast? with
      | none => simp at h3
      | some u => rfl
    rw [h33] at hl
    exact hl
  · rw [List.chain'_append]
    refine ⟨hc1, hc22, ?_⟩
    intro p hp q hq
    have hq2 : x = q := Option.mem_some_iff.mp hq
    subst hq2
    exact hlink p hp x (by simp)

theorem pathSeq_dedup {g : SocialGraph} :
    ∀ (n : Nat) (l : List String) {a b : String}, l.length ≤ n →
      IsPathSeq g a b l →
      ∃ l2, IsPathSeq g a b l2 ∧ l2.Nodup ∧ l2.length ≤ l.length := by
  intro n
  induction n with
  | zero =>
    intro l a b hlen h
    rw [Nat.le_zero, List.length_eq_zero] at hlen
    exact absurd hlen h.1
  | succ n ih =>
    intro l a b hlen h
    by_cases hnd : l.Nodup
    · exact ⟨l, h, hnd, le_refl _⟩
    · obtain ⟨x, l1, l2, l3, rfl⟩ := not_nodup_split hnd
      have hcut := pathSeq_cut h
      have hshort : (l1 ++ x :: l3).length ≤ n := by
        simp only [List.length_append, List.length_cons] at hlen ⊢
        omega
      obtain ⟨lr, hr, hrnd, hrlen⟩ := ih (l1 ++ x :: l3) hshort hcut
      refine ⟨lr, hr, hrnd, ?_⟩
      refine hrlen.trans ?_
      simp only [List.length_append, List.length_cons]
      omega

theorem pathSeq_subset_nodes {g : SocialGraph}
    (hwfE : ∀ e ∈ g.edgeList, e.1 ∈ g.nodes ∧ e.2 ∈ g.nodes ∧ e.1 ≠ e.2) :
    ∀ {l : List String} {a b : String}, a ∈ g.nodes → IsPathSeq g a b l →
      ∀ v ∈ l, v ∈ g.nodes := by
  intro l
  induction l with
  | nil => intro a b _ _ v hv; cases hv
  | cons u rest ih =>
    intro a b ha h v hv
    obtain ⟨_, hhead, hlast, hchain⟩ := h
    have hua : u = a := by simpa using hhead
    subst hua
    rcases List.mem_cons.mp hv with rfl | hv2
    · exact ha
    · cases rest with
      | nil => cases hv2
      | cons w rest2 =>
        rw [List.chain'_cons] at hchain
        have hw : w ∈ g.nodes := (areConnected_mem_nodes hwfE hchain.1).2
        exact ih hw ⟨by simp, by simp, by simpa using hlast, hchain.2⟩ v hv2

theorem filter_length_mono {α : Type} (l : List α) (p p2 : α → Bool)
    (h : ∀ a, p2 a = true → p a = true) :
    (l.filter p2).length ≤ (l.filter p).length := by
  induction l with
  | nil => simp
  | cons a l ih =>
    by_cases h2 : p2 a = true
    · simp only [List.filter_cons, h2, h a h2, if_true, List.length_cons]
      exact Nat.succ_le_succ ih
    · rw [Bool.not_eq_true] at h2
      by_cases h1 : p a = true
      · simp only [List.filter_cons, h2, h1, Bool.false_eq_true, if_false,
          if_true, List.length_cons]
        exact ih.trans (Nat.le_succ _)
      · rw [Bool.not_eq_true] at h1
        simpa only [List.filter_cons, h2, h1, Bool.false_eq_true, if_false] using ih

theorem filter_length_flip {α : Type} {l : List α} {p p2 : α → Bool}
    (h : ∀ a, p2 a = true → p a = true) {m : α} (hm : m ∈ l)
    (hpm : p m = true) (hp2m : p2 m = false) :
    (l.filter p2).length < (l.filter p).length := by
  induction l with
  | nil => cases hm
  | cons a l ih =>
    rcases List.mem_cons.mp hm with rfl | hm2
    · have hmono := filter_length_mono l p p2 h
      simp only [List.filter_cons, hpm, hp2m, Bool.false_eq_true, if_false,
        if_true, List.length_cons]
      omega
    · by_cases h2 : p2 a = true
      · simp only [List.filter_cons, h2, h a h2, if_true, List.length_cons]
        exact Nat.succ_lt_succ (ih hm2)
      · rw [Bool.not_eq_true] at h2
        by_cases h1 : p a = true
        · simp only [List.filter_cons, h2, h1, Bool.false_eq_true, if_false,
            if_true, List.length_cons]
          exact (ih hm2).trans (Nat.lt_succ_self _)
        · rw [Bool.not_eq_true] at h1
          simpa only [List.filter_cons, h2, h1, Bool.false_eq_true, if_false]
            using ih hm2

/-- Every walk between present names is bounded: a walk of minimal length
among walks from `s` to `x` is shorter than the number of people. -/
theorem walk_min_lt_card {g : SocialGraph}
    (hwfE : ∀ e ∈ g.edgeList, e.1 ∈ g.nodes ∧ e.2 ∈ g.nodes ∧ e.1 ≠ e.2)
    {s x : String} {d : Nat} (hs : s ∈ g.nodes)
    (hw : Walk g s x d) (hmin : ∀ m, Walk g s x m → d ≤ m) :
    d < g.nodes.length := by
  obtain ⟨l, hl, hlen⟩ := pathSeq_of_walk hw
  obtain ⟨l2, hl2, hnd, hle⟩ := pathSeq_dedup l.length l (le_refl _) hl
  have hwl2 := walk_of_pathSeq hl2
  have hmin2 : d ≤ l2.length - 1 := hmin _ hwl2
  have hsub : ∀ v ∈ l2, v ∈ g.nodes := pathSeq_subset_nodes hwfE hs hl2
  have hcard : l2.length ≤ g.nodes.length :=
    (List.subperm_of_subset hnd (fun v hv => hsub v hv)).length_le
  have hpos : 0 < l2.length := List.length_pos.mpr hl2.1
  omega

/-! ## BFS loop invariant preservation -/

section BfsCorrect

variable {g : SocialGraph} {neigh : String → List String} {s tgt : String}

theorem undisc_walk_lb
    (hneigh : ∀ c m, m ∈ neigh c ↔ areConnected g c m = true)
    {c : String} {dc : Nat} {st : NameState}
    (hI : MidInv g neigh s tgt c dc st) :
    ∀ {x : String} {mm : Nat}, Walk g s x mm → st.dst x = none → dc + 1 ≤ mm := by
  intro x mm w
  induction w with
  | nil =>
    intro hx
    rw [hI.dzero] at hx
    cases hx
  | @cons a x2 m2 w2 adj ih =>
    intro hx2
    cases ha : st.dst a with
    | none => exact (ih ha).trans (Nat.le_succ m2)
    | some da =>
      have hane : st.dst a ≠ none := by rw [ha]; exact Option.noConfusion
      by_cases haq : a ∈ st.queue
      · have h1 : dc ≤ dv st a := hI.qlo a haq
        have h2 : da ≤ m2 := hI.minim a da ha m2 w2
        have h3 : dv st a = da := by simp [dv, ha]
        omega
      · by_cases hac : a = c
        · subst hac
          have hdc : da = dc := by
            rw [hI.cdisc] at ha
            injection ha with h
            exact h.symm
          have h2 : da ≤ m2 := hI.minim a da ha m2 w2
          omega
        · have hcl := hI.closedX a hane haq hac
          have hx2n : x2 ∈ neigh a := (hneigh a x2).mpr adj
          exact absurd hx2 (hcl x2 hx2n)

theorem visit_preserves
    (hwfE : ∀ e ∈ g.edgeList, e.1 ∈ g.nodes ∧ e.2 ∈ g.nodes ∧ e.1 ≠ e.2)
    (hneigh : ∀ c m, m ∈ neigh c ↔ areConnected g c m = true)
    {c : String} {dc : Nat} {st : NameState} {m : String}
    (hI : MidInv g neigh s tgt c dc st) (hm : m ∈ neigh c) :
    MidInv g neigh s tgt c dc (visitName c st m) ∧
      (visitName c st m).dst m ≠ none ∧
      (∀ x, st.dst x ≠ none → (visitName c st m).dst x = st.dst x) ∧
      nameMeasure g (visitName c st m) ≤ nameMeasure g st := by
  by_cases hdm : st.dst m = none
  case neg =>
    have hv : visitName c st m = st := by
      unfold visitName
      rw [if_neg hdm]
    rw [hv]
    exact ⟨hI, hdm, fun x _ => rfl, le_refl _⟩
  case pos =>
  have hadjcm : areConnected g c m = true := (hneigh c m).mp hm
  have hmnodes : m ∈ g.nodes := (areConnected_mem_nodes hwfE hadjcm).2
  have hv : visitName c st m =
      ⟨fun y => if y = m then some c else st.par y,
        fun y => if y = m then some (dc + 1) else st.dst y,
        st.queue ++ [m]⟩ := by
    unfold visitName
    rw [if_pos hdm, hI.cdisc]
    rfl
  have hdst : ∀ y, (visitName c st m).dst y =
      if y = m then some (dc + 1) else st.dst y := by
    intro y
    rw [hv]
  have hpar : ∀ y, (visitName c st m).par y =
      if y = m then some c else st.par y := by
    intro y
    rw [hv]
  have hque : (visitName c st m).queue = st.queue ++ [m] := by
    rw [hv]
  have hmc : ¬m = c := by
    intro h
    rw [h, hI.cdisc] at hdm
    cases hdm
  have hms : ¬m = s := by
    intro h
    rw [h, hI.dzero] at hdm
    cases hdm
  have hdold : ∀ x, st.dst x ≠ none → (visitName c st m).dst x = st.dst x := by
    intro x hx
    rw [hdst x, if_neg (fun h => hx (by rw [h]; exact hdm))]
  have hdvold : ∀ a, st.dst a ≠ none → dv (visitName c st m) a = dv st a := by
    intro a ha
    unfold dv
    rw [hdold a ha]
  have hdvm : dv (visitName c st m) m = dc + 1 := by
    unfold dv
    rw [hdst m, if_pos rfl]
    rfl
  refine ⟨?_, ?_, hdold, ?_⟩
  · constructor
    case dzero =>
      rw [hdst s, if_neg (fun h => hms h.symm)]
      exact hI.dzero
    case dzero_only =>
      intro x hx
      rw [hdst x] at hx
      by_cases hxm : x = m
      · rw [if_pos hxm] at hx
        injection hx with hx
        cases hx
      · rw [if_neg hxm] at hx
        exact hI.dzero_only x hx
    case qdisc =>
      intro x hx
      rw [hque] at hx
      rw [hdst x]
      rcases List.mem_append.mp hx with hx | hx
      · have hold := hI.qdisc x hx
        rw [if_neg (fun h => hold (by rw [h]; exact hdm))]
        exact hold
      · have hxm : x = m := by simpa using hx
        rw [if_pos hxm]
        exact Option.noConfusion
    case dnodes =>
      intro x hx
      rw [hdst x] at hx
      by_cases hxm : x = m
      · exact hxm ▸ hmnodes
      · rw [if_neg hxm] at hx
        exact hI.dnodes x hx
    case parNone =>
      rw [hpar s, if_neg (fun h => hms h.symm)]
      exact hI.parNone
    case parSome =>
      intro x hxs hx
      rw [hdst x] at hx
      rw [hpar x]
      by_cases hxm : x = m
      · rw [if_pos hxm]
        exact Option.noConfusion
      · rw [if_neg hxm] at hx ⊢
        exact hI.parSome x hxs hx
    case parRel =>
      intro x p hp
      rw [hpar x] at hp
      by_cases hxm : x = m
      · rw [if_pos hxm] at hp
        injection hp with hp
        subst hp
        refine ⟨dc, ?_, ?_, ?_⟩
        · rw [hdst c, if_neg (fun h : c = m => hmc h.symm)]
          exact hI.cdisc
        · rw [hdst x, if_pos hxm]
        · rw [hxm]
          exact hadjcm
      · rw [if_neg hxm] at hp
        obtain ⟨d, hp1, hp2, hp3⟩ := hI.parRel x p hp
        have hpm : ¬p = m := by
          intro h
          rw [h, hdm] at hp1
          cases hp1
        refine ⟨d, ?_, ?_, hp3⟩
        · rw [hdst p, if_neg hpm]
          exact hp1
        · rw [hdst x, if_neg hxm]
          exact hp2
    case sound =>
      intro x d hx
      rw [hdst x] at hx
      by_cases hxm : x = m
      · rw [if_pos hxm] at hx
        injection hx with hx
        subst hx
        subst hxm
        exact Walk.cons (hI.sound c dc hI.cdisc) hadjcm
      · rw [if_neg hxm] at hx
        exact hI.sound x d hx
    case minim =>
      intro x d hx mm w
      rw [hdst x] at hx
      by_cases hxm : x = m
      · rw [if_pos hxm] at hx
        injection hx with hx
        subst hx
        subst hxm
        exact undisc_walk_lb hneigh hI w hdm
      · rw [if_neg hxm] at hx
        exact hI.minim x d hx mm w
    case qsorted =>
      rw [hque, List.pairwise_append]
      refine ⟨?_, List.pairwise_singleton _ _, ?_⟩
      · apply hI.qsorted.imp_of_mem
        intro a b ha hb hab
        rw [hdvold a (hI.qdisc a ha), hdvold b (hI.qdisc b hb)]
        exact hab
      · intro a ha b hb
        have hbm : b = m := by simpa using hb
        subst hbm
        rw [hdvold a (hI.qdisc a ha), hdvm]
        exact hI.qhi a ha
    case qlo =>
      intro a ha
      rw [hque] at ha
      rcases List.mem_append.mp ha with ha | ha
      · rw [hdvold a (hI.qdisc a ha)]
        exact hI.qlo a ha
      · have ham : a = m := by simpa using ha
        subst ham
        rw [hdvm]
        exact Nat.le_succ dc
    case qhi =>
      intro a ha
      rw [hque] at ha
      rcases List.mem_append.mp ha with ha | ha
      · rw [hdvold a (hI.qdisc a ha)]
        exact hI.qhi a ha
      · have ham : a = m := by simpa using ha
        subst ham
        rw [hdvm]
    case cdisc =>
      rw [hdst c, if_neg (fun h : c = m => hmc h.symm)]
      exact hI.cdisc
    case closedX =>
      intro x hx hxq hxc m2 hm2
      rw [hque] at hxq
      rw [hdst x] at hx
      have hxm : ¬x = m := by
        intro h
        exact hxq (by rw [h]; exact List.mem_append_right _ (List.mem_singleton_self m))
      rw [if_neg hxm] at hx
      have hxq2 : x ∉ st.queue := fun h => hxq (List.mem_append_left _ h)
      have hold := hI.closedX x hx hxq2 hxc m2 hm2
      rw [hdst m2]
      by_cases hm2m : m2 = m
      · rw [if_pos hm2m]
        exact Option.noConfusion
      · rw [if_neg hm2m]
        exact hold
    case tq =>
      intro ht
      rw [hdst tgt] at ht
      rw [hque]
      by_cases htm : tgt = m
      · rw [htm]
        exact List.mem_append_right _ (List.mem_singleton_self m)
      · rw [if_neg htm] at ht
        exact List.mem_append_left _ (hI.tq ht)
  · rw [hdst m, if_pos rfl]
    exact Option.noConfusion
  · unfold nameMeasure
    rw [hque]
    simp only [List.length_append, List.length_singleton]
    have hflip : ((g.nodes.filter
        (fun x => (visitName c st m).dst x = none)).length <
        (g.nodes.filter (fun x => st.dst x = none)).length) := by
      apply filter_length_flip (m := m)
      · intro a ha
        rw [decide_eq_true_iff] at ha
        by_cases ham : a = m
        · rw [ham, hdst m, if_pos rfl] at ha
          cases ha
        · rw [hdst a, if_neg ham] at ha
          simp [ha]
      · exact hmnodes
      · simp [hdm]
      · rw [decide_eq_false_iff_not]
        rw [hdst m, if_pos rfl]
        exact Option.noConfusion
    omega

theorem foldVisit_preserves
    (hwfE : ∀ e ∈ g.edgeList, e.1 ∈ g.nodes ∧ e.2 ∈ g.nodes ∧ e.1 ≠ e.2)
    (hneigh : ∀ c m, m ∈ neigh c ↔ areConnected g c m = true)
    {c : String} {dc : Nat} :
    ∀ (ns : List String) (st : NameState), MidInv g neigh s tgt c dc st →
      (∀ m ∈ ns, m ∈ neigh c) →
      MidInv g neigh s tgt c dc (ns.foldl (visitName c) st) ∧
      (∀ m ∈ ns, (ns.foldl (visitName c) st).dst m ≠ none) ∧
      (∀ x, st.dst x ≠ none → (ns.foldl (visitName c) st).dst x = st.dst x) ∧
      nameMeasure g (ns.foldl (visitName c) st) ≤ nameMeasure g st := by
  intro ns
  induction ns with
  | nil =>
    intro st hI _
    exact ⟨hI, by simp, fun x _ => rfl, le_refl _⟩
  | cons m ns ih =>
    intro st hI hns
    rw [List.foldl_cons]
    obtain ⟨hI1, hm1, hmono1, hmeas1⟩ :=
      visit_preserves hwfE hneigh hI (hns m (List.mem_cons_self m ns))
    obtain ⟨hI2, hm2, hmono2, hmeas2⟩ :=
      ih (visitName c st m) hI1 (fun m2 h => hns m2 (List.mem_cons_of_mem m h))
    refine ⟨hI2, ?_, ?_, hmeas2.trans hmeas1⟩
    · intro m2 hm2mem
      rcases List.mem_cons.mp hm2mem with rfl | hmem
      · intro hnone
        apply hm1
        rw [← hmono2 m2 hm1]
        exact hnone
      · exact hm2 m2 hmem
    · intro x hx
      have hx1 : (visitName c st m).dst x ≠ none := by
        rw [hmono1 x hx]
        exact hx
      rw [hmono2 x hx1, hmono1 x hx]

theorem step_preserves
    (hwfE : ∀ e ∈ g.edgeList, e.1 ∈ g.nodes ∧ e.2 ∈ g.nodes ∧ e.1 ≠ e.2)
    (hneigh : ∀ c m, m ∈ neigh c ↔ areConnected g c m = true)
    {st : NameState} {c : String} {rest : List String}
    (hI : BfsInv g neigh s tgt st) (hq : st.queue = c :: rest) (hct : ¬c = tgt) :
    BfsInv g neigh s tgt ((neigh c).foldl (visitName c) { st with queue := rest }) ∧
    nameMeasure g ((neigh c).foldl (visitName c) { st with queue := rest }) + 1 ≤
      nameMeasure g st := by
  have hcq : c ∈ st.queue := by rw [hq]; exact List.mem_cons_self c rest
  have hcd : st.dst c ≠ none := hI.qdisc c hcq
  obtain ⟨dc, hdc⟩ : ∃ dc, st.dst c = some dc := by
    cases h : st.dst c with
    | none => exact absurd h hcd
    | some d => exact ⟨d, rfl⟩
  have hdvc : dv st c = dc := by simp [dv, hdc]
  have hpairs := hI.qsorted
  rw [hq, List.pairwise_cons] at hpairs
  have hMid : MidInv g neigh s tgt c dc { st with queue := rest } := by
    constructor
    case dzero => exact hI.dzero
    case dzero_only => exact hI.dzero_only
    case qdisc =>
      intro x hx
      exact hI.qdisc x (by rw [hq]; exact List.mem_cons_of_mem c hx)
    case dnodes => exact hI.dnodes
    case parNone => exact hI.parNone
    case parSome => exact hI.parSome
    case parRel => exact hI.parRel
    case sound => exact hI.sound
    case minim => exact hI.minim
    case qsorted => exact hpairs.2
    case qlo =>
      intro a ha
      have h1 := hpairs.1 a ha
      show dc ≤ dv st a
      omega
    case qhi =>
      intro a ha
      have h := hI.qspread c hcq a (by rw [hq]; exact List.mem_cons_of_mem c ha)
      show dv st a ≤ dc + 1
      omega
    case cdisc => exact hdc
    case closedX =>
      intro x hx hxq hxc m2 hm2
      apply hI.closed x hx _ m2 hm2
      rw [hq]
      intro hmem
      rcases List.mem_cons.mp hmem with h | h
      · exact hxc h
      · exact hxq h
    case tq =>
      intro ht
      have hmem := hI.tq ht
      rw [hq] at hmem
      rcases List.mem_cons.mp hmem with h | h
      · exact absurd h.symm hct
      · exact h
  obtain ⟨hIF, hall, _, hmeas⟩ :=
    foldVisit_preserves hwfE hneigh (neigh c) { st with queue := rest } hMid
      (fun _ h => h)
  constructor
  · constructor
    case dzero => exact hIF.dzero
    case dzero_only => exact hIF.dzero_only
    case qdisc => exact hIF.qdisc
    case dnodes => exact hIF.dnodes
    case parNone => exact hIF.parNone
    case parSome => exact hIF.parSome
    case parRel => exact hIF.parRel
    case sound => exact hIF.sound
    case minim => exact hIF.minim
    case qsorted => exact hIF.qsorted
    case qspread =>
      intro a ha b hb
      have h1 := hIF.qlo a ha
      have h2 := hIF.qhi b hb
      omega
    case closed =>
      intro x hx hxq m2 hm2
      by_cases hxc : x = c
      · subst hxc
        exact hall m2 hm2
      · exact hIF.closedX x hx hxq hxc m2 hm2
    case tq => exact hIF.tq
  · have hbase : nameMeasure g { st with queue := rest } + 1 = nameMeasure g st := by
      unfold nameMeasure
      rw [hq]
      simp only [List.length_cons]
      have hfe : (g.nodes.filter
          (fun x => ({ st with queue := rest } : NameState).dst x = none)) =
          g.nodes.filter (fun x => st.dst x = none) := rfl
      rw [hfe]
      omega
    omega

theorem nameLoop_succ (nf : String → List String) (t2 : String)
    (fuel : Nat) (st : NameState) :
    nameLoop nf t2 (fuel + 1) st =
      match st.queue with
      | [] => none
      | c :: rest =>
        if c = t2 then some st
        else nameLoop nf t2 fuel
          ((nf c).foldl (visitName c) { st with queue := rest }) := rfl

theorem closed_world
    (hneigh : ∀ c m, m ∈ neigh c ↔ areConnected g c m = true)
    {st : NameState} (hI : BfsInv g neigh s tgt st) (hq : st.queue = []) :
    ∀ {x : String} {m : Nat}, Walk g s x m → st.dst x ≠ none := by
  intro x m w
  induction w with
  | nil =>
    rw [hI.dzero]
    exact Option.noConfusion
  | @cons a x2 m2 w2 adj ih =>
    exact hI.closed a ih (by rw [hq]; exact List.not_mem_nil a) x2
      ((hneigh a x2).mpr adj)

theorem nameLoop_some_spec
    (hwfE : ∀ e ∈ g.edgeList, e.1 ∈ g.nodes ∧ e.2 ∈ g.nodes ∧ e.1 ≠ e.2)
    (hneigh : ∀ c m, m ∈ neigh c ↔ areConnected g c m = true) :
    ∀ (fuel : Nat) (st stF : NameState), BfsInv g neigh s tgt st →
      nameLoop neigh tgt fuel st = some stF →
      BfsInv g neigh s tgt stF ∧ stF.dst tgt ≠ none := by
  intro fuel
  induction fuel with
  | zero =>
    intro st stF _ h
    cases h
  | succ fuel ih =>
    intro st stF hI h
    rw [nameLoop_succ] at h
    split at h
    · cases h
    · rename_i c rest hq
      split at h
      · rename_i hct
        injection h with h2
        subst h2
        refine ⟨hI, ?_⟩
        apply hI.qdisc
        rw [hq, ← hct]
        exact List.mem_cons_self c rest
      · rename_i hct
        exact ih _ _ (step_preserves hwfE hneigh hI hq hct).1 h

theorem nameLoop_none_no_walk
    (hwfE : ∀ e ∈ g.edgeList, e.1 ∈ g.nodes ∧ e.2 ∈ g.nodes ∧ e.1 ≠ e.2)
    (hneigh : ∀ c m, m ∈ neigh c ↔ areConnected g c m = true) :
    ∀ (fuel : Nat) (st : NameState), BfsInv g neigh s tgt st →
      nameMeasure g st ≤ fuel → nameLoop neigh tgt fuel st = none →
      ∀ (m : Nat), ¬Walk g s tgt m := by
  intro fuel
  induction fuel with
  | zero =>
    intro st hI hmeas _ m hw
    have hq : st.queue = [] := by
      unfold nameMeasure at hmeas
      cases hqq : st.queue with
      | nil => rfl
      | cons a l =>
        rw [hqq] at hmeas
        simp only [List.length_cons] at hmeas
        omega
    have hd := closed_world hneigh hI hq hw
    have hmem := hI.tq hd
    rw [hq] at hmem
    cases hmem
  | succ fuel ih =>
    intro st hI hmeas h m hw
    rw [nameLoop_succ] at h
    split at h
    · rename_i hq
      have hd := closed_world hneigh hI hq hw
      have hmem := hI.tq hd
      rw [hq] at hmem
      cases hmem
    · rename_i c rest hq
      split at h
      · cases h
      · rename_i hct
        obtain ⟨hI2, hmeas2⟩ := step_preserves hwfE hneigh hI hq hct
        exact ih _ hI2 (by omega) h m hw

theorem rebuildName_none {par : String → Option String} {v : String}
    (h : par v = none) : ∀ fuel, rebuildName par fuel v = [v] := by
  intro fuel
  cases fuel with
  | zero => rfl
  | succ f => simp [rebuildName, h]

theorem rebuildName_ne_nil (par : String → Option String) :
    ∀ (fuel : Nat) (v : String), rebuildName par fuel v ≠ [] := by
  intro fuel v
  cases fuel with
  | zero => simp [rebuildName]
  | succ f =>
    cases h : par v with
    | none => simp [rebuildName, h]
    | some p => simp [rebuildName, h]

theorem rebuild_spec {st : NameState} (hI : BfsInv g neigh s tgt st) :
    ∀ (dx : Nat) (x : String) (fuel : Nat), st.dst x = some dx → dx ≤ fuel →
      (rebuildName st.par fuel x).head? = some s ∧
      (rebuildName st.par fuel x).getLast? = some x ∧
      List.Chain' (fun a b => areConnected g a b = true) (rebuildName st.par fuel x) ∧
      (rebuildName st.par fuel x).length = dx + 1 := by
  intro dx
  induction dx with
  | zero =>
    intro x fuel hx _
    have hxs : x = s := hI.dzero_only x hx
    subst hxs
    rw [rebuildName_none hI.parNone fuel]
    exact ⟨rfl, rfl, List.chain'_singleton x, rfl⟩
  | succ d ihd =>
    intro x fuel hx hfuel
    have hxs : ¬x = s := by
      intro h
      rw [h, hI.dzero] at hx
      injection hx with hx
      omega
    have hpar : st.par x ≠ none :=
      hI.parSome x hxs (by rw [hx]; exact Option.noConfusion)
    obtain ⟨p, hp⟩ : ∃ p, st.par x = some p := by
      cases h : st.par x with
      | none => exact absurd h hpar
      | some p => exact ⟨p, rfl⟩
    obtain ⟨d2, hp1, hp2, hp3⟩ := hI.parRel x p hp
    have hd2 : d2 = d := by
      rw [hx] at hp2
      injection hp2 with h
      omega
    subst hd2
    cases fuel with
    | zero => omega
    | succ f =>
      have hrw : rebuildName st.par (f + 1) x = rebuildName st.par f p ++ [x] := by
        show (match st.par x with
          | none => [x]
          | some p2 => rebuildName st.par f p2 ++ [x]) = _
        rw [hp]
      obtain ⟨ih1, ih2, ih3, ih4⟩ := ihd p f hp1 (by omega)
      rw [hrw]
      refine ⟨?_, ?_, ?_, ?_⟩
      · rw [List.head?_append, ih1]
        rfl
      · rw [List.getLast?_append]
        rfl
      · rw [List.chain'_append]
        refine ⟨ih3, List.chain'_singleton x, ?_⟩
        intro a ha b hb
        have ha2 : p = a := by rw [ih2] at ha; exact Option.mem_some_iff.mp ha
        have hb2 : x = b := Option.mem_some_iff.mp hb
        subst ha2
        subst hb2
        exact hp3
      · simp [ih4]

theorem init_inv (hs : s ∈ g.nodes) (st0 : NameState)
    (h1 : st0.par = fun _ => none)
    (h2 : st0.dst = fun y => if y = s then some 0 else none)
    (h3 : st0.queue = [s]) : BfsInv g neigh s tgt st0 := by
  constructor
  case dzero => simp [h2]
  case dzero_only =>
    intro x hx
    simp only [h2] at hx
    by_cases hxs : x = s
    · exact hxs
    · rw [if_neg hxs] at hx
      cases hx
  case qdisc =>
    intro x hx
    rw [h3] at hx
    have hxs : x = s := by simpa using hx
    simp [h2, hxs]
  case dnodes =>
    intro x hx
    simp only [h2] at hx
    by_cases hxs : x = s
    · exact hxs ▸ hs
    · rw [if_neg hxs] at hx
      exact absurd rfl hx
  case parNone => simp [h1]
  case parSome =>
    intro x hxs hx
    simp only [h2] at hx
    rw [if_neg hxs] at hx
    exact absurd rfl hx
  case parRel =>
    intro x p hp
    simp only [h1] at hp
    cases hp
  case sound =>
    intro x d hx
    simp only [h2] at hx
    by_cases hxs : x = s
    · rw [if_pos hxs] at hx
      injection hx with hx
      subst hxs
      rw [← hx]
      exact Walk.nil
    · rw [if_neg hxs] at hx
      cases hx
  case minim =>
    intro x d hx m _
    simp only [h2] at hx
    by_cases hxs : x = s
    · rw [if_pos hxs] at hx
      injection hx with hx
      omega
    · rw [if_neg hxs] at hx
      cases hx
  case qsorted =>
    rw [h3]
    exact List.pairwise_singleton _ _
  case qspread =>
    intro a ha b hb
    rw [h3] at ha hb
    have has : a = s := by simpa using ha
    have hbs : b = s := by simpa using hb
    subst has
    subst hbs
    omega
  case closed =>
    intro x hx hxq m hm
    simp only [h2] at hx
    by_cases hxs : x = s
    · subst hxs
      rw [h3] at hxq
      exact absurd (List.mem_singleton_self x) hxq
    · rw [if_neg hxs] at hx
      exact absurd rfl hx
  case tq =>
    intro ht
    simp only [h2] at ht
    by_cases hts : tgt = s
    · rw [h3, hts]
      exact List.mem_singleton_self s
    · rw [if_neg hts] at ht
      exact absurd rfl ht

end BfsCorrect

theorem nameMeasure_le (g : SocialGraph) (st : NameState) :
    nameMeasure g st ≤ st.queue.length + 2 * g.nodes.length := by
  unfold nameMeasure
  have h := List.length_filter_le (fun x => decide (st.dst x = none)) g.nodes
  omega

theorem bfsSearch_correct (nf : SocialGraph → String → List String)
    (g : SocialGraph)
    (hwfE : ∀ e ∈ g.edgeList, e.1 ∈ g.nodes ∧ e.2 ∈ g.nodes ∧ e.1 ≠ e.2)
    (hneigh : ∀ c m, m ∈ nf g c ↔ areConnected g c m = true) (a b : String) :
    (bfsSearch nf g a b ≠ [] →
      (bfsSearch nf g a b).head? = some a ∧
      (bfsSearch nf g a b).getLast? = some b ∧
      List.Chain' (fun x y => areConnected g x y = true) (bfsSearch nf g a b) ∧
      ∀ q, IsPathSeq g a b q → (bfsSearch nf g a b).length ≤ q.length) ∧
    (bfsSearch nf g a b = [] ↔
      (a ∉ g.nodes ∨ b ∉ g.nodes ∨ ¬∃ q, IsPathSeq g a b q)) := by
  unfold bfsSearch
  by_cases hpres : a ∈ g.nodes ∧ b ∈ g.nodes
  case neg =>
    rw [if_neg hpres]
    refine ⟨fun h => absurd rfl h, ?_⟩
    constructor
    · intro _
      by_cases ha : a ∈ g.nodes
      · by_cases hb : b ∈ g.nodes
        · exact absurd ⟨ha, hb⟩ hpres
        · exact Or.inr (Or.inl hb)
      · exact Or.inl ha
    · intro _
      rfl
  case pos =>
    obtain ⟨ha, hb⟩ := hpres
    rw [if_pos ⟨ha, hb⟩]
    have hI0 : BfsInv g (nf g) a b
        ⟨fun _ => none, fun y => if y = a then some 0 else none, [a]⟩ :=
      init_inv ha _ rfl rfl rfl
    have hmeas0 : nameMeasure g
        ⟨fun _ => none, fun y => if y = a then some 0 else none, [a]⟩ ≤
        2 * g.nodes.length + 1 := by
      have h1 := nameMeasure_le g
        ⟨fun _ => none, fun y => if y = a then some 0 else none, [a]⟩
      have h2 : (⟨fun _ => none, fun y => if y = a then some 0 else none,
        [a]⟩ : NameState).queue.length = 1 := rfl
      omega
    cases hloop : nameLoop (nf g) b (2 * g.nodes.length + 1)
        ⟨fun _ => none, fun y => if y = a then some 0 else none, [a]⟩ with
    | none =>
      have hnowalk := nameLoop_none_no_walk hwfE hneigh _ _ hI0 hmeas0 hloop
      refine ⟨fun h => absurd rfl h, ?_⟩
      constructor
      · intro _
        refine Or.inr (Or.inr ?_)
        rintro ⟨q, hq⟩
        exact hnowalk _ (walk_of_pathSeq hq)
      · intro _
        rfl
    | some stF =>
      have hred : (match some stF with
          | none => ([] : List String)
          | some st => rebuildName st.par g.nodes.length b) =
          rebuildName stF.par g.nodes.length b := rfl
      rw [hred]
      obtain ⟨hIF, hdb⟩ := nameLoop_some_spec hwfE hneigh _ _ stF hI0 hloop
      obtain ⟨dt, hdt⟩ : ∃ dt, stF.dst b = some dt := by
        cases h : stF.dst b with
        | none => exact absurd h hdb
        | some d => exact ⟨d, rfl⟩
      have hwalk : Walk g a b dt := hIF.sound b dt hdt
      have hmin : ∀ m, Walk g a b m → dt ≤ m := hIF.minim b dt hdt
      have hdtlt : dt < g.nodes.length := walk_min_lt_card hwfE ha hwalk hmin
      obtain ⟨hh, hl, hc, hlen⟩ :=
        rebuild_spec hIF dt b g.nodes.length hdt (by omega)
      have hne : rebuildName stF.par g.nodes.length b ≠ [] :=
        rebuildName_ne_nil _ _ _
      refine ⟨fun _ => ⟨hh, hl, hc, ?_⟩, ?_⟩
      · intro q hq
        have hmq := hmin _ (walk_of_pathSeq hq)
        have hqpos : 0 < q.length := List.length_pos.mpr hq.1
        omega
      · constructor
        · intro h
          exact absurd h hne
        · intro hcon
          rcases hcon with h | h | h
          · exact absurd ha h
          · exact absurd hb h
          · exfalso
            apply h
            obtain ⟨l, hl2, _⟩ := pathSeq_of_walk hwalk
            exact ⟨l, hl2⟩

/-! ## Refinement: the index-based BFS equals the name-based search -/

theorem getD_mem {l : List String} {i : Nat} (h : i < l.length) :
    l.getD i "" ∈ l := by
  rw [List.getD_eq_getElem _ _ h]
  exact List.getElem_mem h

theorem getD_inj {l : List String} (hnd : l.Nodup) {i j : Nat}
    (hi : i < l.length) (hj : j < l.length)
    (h : l.getD i "" = l.getD j "") : i = j := by
  rw [List.getD_eq_getElem _ _ hi, List.getD_eq_getElem _ _ hj] at h
  exact (List.Nodup.getElem_inj_iff hnd).mp h

theorem bfsLoop_succ (g : SocialGraph) (endIdx fuel : Nat) (st : BfsState) :
    bfsLoop g endIdx (fuel + 1) st =
      match st.queue with
      | [] => none
      | current :: rest =>
        if current = endIdx then some st
        else bfsLoop g endIdx fuel
          ((getFriends g (g.nodes.getD current "")).foldl
            (visitNeighbor g.nodes current) { st with queue := rest }) := rfl

theorem visit_corr {g : SocialGraph} (hnd : g.nodes.Nodup)
    {c : Nat} (hc : c < g.nodes.length) {stI : BfsState} {stN : NameState}
    (hrel : IdxRel g stI stN) {m : String} (hm : m ∈ g.nodes) :
    IdxRel g (visitNeighbor g.nodes c stI m)
      (visitName (g.nodes.getD c "") stN m) := by
  obtain ⟨hq, hqb, hd, hp, hpb⟩ := hrel
  obtain ⟨ni, hfind, hni, hgetni⟩ := findIdx?_mem hm
  have hvI : visitNeighbor g.nodes c stI m =
      (if stI.dst ni = none then
        ⟨fun j => if j = ni then some c else stI.par j,
          fun j => if j = ni then some ((stI.dst c).getD 0 + 1) else stI.dst j,
          stI.queue ++ [ni]⟩
      else stI) := by
    unfold visitNeighbor
    rw [hfind]
  have hguard : stI.dst ni = stN.dst m := by rw [hd ni hni, hgetni]
  by_cases hdn : stI.dst ni = none
  case pos =>
    have hdnN : stN.dst m = none := by rw [← hguard]; exact hdn
    have hvN : visitName (g.nodes.getD c "") stN m =
        ⟨fun y => if y = m then some (g.nodes.getD c "") else stN.par y,
          fun y => if y = m then some ((stN.dst (g.nodes.getD c "")).getD 0 + 1)
            else stN.dst y,
          stN.queue ++ [m]⟩ := by
      unfold visitName
      rw [if_pos hdnN]
    rw [hvI, if_pos hdn, hvN]
    have hdc : stI.dst c = stN.dst (g.nodes.getD c "") := hd c hc
    refine ⟨?_, ?_, ?_, ?_, ?_⟩
    · show stN.queue ++ [m] = (stI.queue ++ [ni]).map _
      rw [List.map_append, hq, ← hgetni]
      rfl
    · intro i hi
      have hi2 : i ∈ stI.queue ++ [ni] := hi
      rcases List.mem_append.mp hi2 with hi3 | hi3
      · exact hqb i hi3
      · have hini : i = ni := by simpa using hi3
        exact hini ▸ hni
    · intro i hilt
      show (if i = ni then some ((stI.dst c).getD 0 + 1) else stI.dst i) =
        (if g.nodes.getD i "" = m
          then some ((stN.dst (g.nodes.getD c "")).getD 0 + 1)
          else stN.dst (g.nodes.getD i ""))
      by_cases hini : i = ni
      · rw [if_pos hini, if_pos (by rw [hini, hgetni]), hdc]
      · rw [if_neg hini,
          if_neg (fun hcontra =>
            hini (getD_inj hnd hilt hni (by rw [hcontra, hgetni])))]
        exact hd i hilt
    · intro i hilt
      show Option.map _ (if i = ni then some c else stI.par i) =
        (if g.nodes.getD i "" = m then some (g.nodes.getD c "")
          else stN.par (g.nodes.getD i ""))
      by_cases hini : i = ni
      · rw [if_pos hini, if_pos (by rw [hini, hgetni])]
        rfl
      · rw [if_neg hini,
          if_neg (fun hcontra =>
            hini (getD_inj hnd hilt hni (by rw [hcontra, hgetni])))]
        exact hp i hilt
    · intro i p hip
      have hip2 : (if i = ni then some c else stI.par i) = some p := hip
      by_cases hini : i = ni
      · rw [if_pos hini] at hip2
        injection hip2 with h
        exact h ▸ hc
      · rw [if_neg hini] at hip2
        exact hpb i p hip2
  case neg =>
    have hdnN : stN.dst m ≠ none := by rw [← hguard]; exact hdn
    have hvN : visitName (g.nodes.getD c "") stN m = stN := by
      unfold visitName
      rw [if_neg hdnN]
    rw [hvI, if_neg hdn, hvN]
    exact ⟨hq, hqb, hd, hp, hpb⟩

theorem fold_corr {g : SocialGraph} (hnd : g.nodes.Nodup)
    {c : Nat} (hc : c < g.nodes.length) :
    ∀ (ns : List String) {stI : BfsState} {stN : NameState},
      IdxRel g stI stN → (∀ m ∈ ns, m ∈ g.nodes) →
      IdxRel g (ns.foldl (visitNeighbor g.nodes c) stI)
        (ns.foldl (visitName (g.nodes.getD c "")) stN) := by
  intro ns
  induction ns with
  | nil => intro stI stN hrel _; exact hrel
  | cons m ns ih =>
    intro stI stN hrel hns
    rw [List.foldl_cons, List.foldl_cons]
    exact ih (visit_corr hnd hc hrel (hns m (List.mem_cons_self m ns)))
      (fun m2 h => hns m2 (List.mem_cons_of_mem m h))

theorem rebuild_corr {g : SocialGraph} {stI : BfsState} {stN : NameState}
    (hp : ∀ i, i < g.nodes.length →
      (stI.par i).map (fun p => g.nodes.getD p "") = stN.par (g.nodes.getD i ""))
    (hpb : ∀ i p, stI.par i = some p → p < g.nodes.length) :
    ∀ (fuel : Nat) (v : Nat), v < g.nodes.length →
      (rebuild stI.par fuel v).map (fun i => g.nodes.getD i "") =
        rebuildName stN.par fuel (g.nodes.getD v "") := by
  intro fuel
  induction fuel with
  | zero => intro v _; rfl
  | succ f ih =>
    intro v hv
    have hpv := hp v hv
    cases hpar : stI.par v with
    | none =>
      rw [hpar] at hpv
      show (rebuild stI.par (f + 1) v).map _ = _
      rw [show rebuild stI.par (f + 1) v = [v] from by
        show (match stI.par v with
          | none => [v]
          | some p => rebuild stI.par f p ++ [v]) = [v]
        rw [hpar]]
      rw [rebuildName_none (by rw [← hpv]; rfl) (f + 1)]
      rfl
    | some p =>
      rw [hpar] at hpv
      have hplt := hpb v p hpar
      have hIv : rebuild stI.par (f + 1) v = rebuild stI.par f p ++ [v] := by
        show (match stI.par v with
          | none => [v]
          | some p2 => rebuild stI.par f p2 ++ [v]) = _
        rw [hpar]
      have hNv : rebuildName stN.par (f + 1) (g.nodes.getD v "") =
          rebuildName stN.par f (g.nodes.getD p "") ++ [g.nodes.getD v ""] := by
        show (match stN.par (g.nodes.getD v "") with
          | none => [g.nodes.getD v ""]
          | some p2 => rebuildName stN.par f p2 ++ [g.nodes.getD v ""]) = _
        rw [← hpv]
        rfl
      rw [hIv, hNv, List.map_append, ih p hplt]
      rfl

theorem loop_corr {g : SocialGraph} (hnd : g.nodes.Nodup)
    (hwfE : ∀ e ∈ g.edgeList, e.1 ∈ g.nodes ∧ e.2 ∈ g.nodes ∧ e.1 ≠ e.2)
    {endIdx : Nat} (hE : endIdx < g.nodes.length) :
    ∀ (fuel : Nat) (stI : BfsState) (stN : NameState), IdxRel g stI stN →
      (bfsLoop g endIdx fuel stI).map
          (fun st => (rebuild st.par g.nodes.length endIdx).map
            (fun i => g.nodes.getD i "")) =
        (nameLoop (getFriends g) (g.nodes.getD endIdx "") fuel stN).map
          (fun st => rebuildName st.par g.nodes.length
            (g.nodes.getD endIdx "")) := by
  intro fuel
  induction fuel with
  | zero => intro stI stN _; rfl
  | succ fuel ih =>
    intro stI stN hrel
    obtain ⟨hq, hqb, hd, hp, hpb⟩ := hrel
    rw [bfsLoop_succ, nameLoop_succ, hq]
    cases hqI : stI.queue with
    | nil => rfl
    | cons c restI =>
      have hcq : c ∈ stI.queue := by rw [hqI]; exact List.mem_cons_self _ _
      have hclt : c < g.nodes.length := hqb c hcq
      show ((if c = endIdx then some stI
          else bfsLoop g endIdx fuel
            ((getFriends g (g.nodes.getD c "")).foldl (visitNeighbor g.nodes c)
              { stI with queue := restI })).map
          (fun st => (rebuild st.par g.nodes.length endIdx).map
            (fun i => g.nodes.getD i ""))) =
        ((if g.nodes.getD c "" = g.nodes.getD endIdx "" then some stN
          else nameLoop (getFriends g) (g.nodes.getD endIdx "") fuel
            ((getFriends g (g.nodes.getD c "")).foldl
              (visitName (g.nodes.getD c ""))
              { stN with
                queue := List.map (fun i => g.nodes.getD i "") restI })).map
          (fun st => rebuildName st.par g.nodes.length
            (g.nodes.getD endIdx "")))
      by_cases hce : c = endIdx
      · rw [if_pos hce, if_pos (by rw [hce])]
        exact congrArg some (rebuild_corr hp hpb g.nodes.length endIdx hE)
      · rw [if_neg hce, if_neg (fun h => hce (getD_inj hnd hclt hE h))]
        apply ih
        apply fold_corr hnd hclt
        · refine ⟨rfl, ?_, hd, hp, hpb⟩
          intro i hi
          exact hqb i (by rw [hqI]; exact List.mem_cons_of_mem c hi)
        · intro m hm
          exact getFriends_mem_nodes hwfE hm

theorem shortestPath_eq_bfsSearch (g : SocialGraph) (hwf : WF g)
    (a b : String) : shortestPath g a b = bfsSearch getFriends g a b := by
  obtain ⟨hnd, hwfE2, _⟩ := hwf
  by_cases hpres : a ∈ g.nodes ∧ b ∈ g.nodes
  case pos =>
    obtain ⟨ha, hb⟩ := hpres
    obtain ⟨sI, hfindA, hsI, hgetA⟩ := findIdx?_mem ha
    obtain ⟨eI, hfindB, heI, hgetB⟩ := findIdx?_mem hb
    have hL : shortestPath g a b =
        match bfsLoop g eI (2 * g.nodes.length + 1)
            ⟨fun _ => none, fun j => if j = sI then some 0 else none, [sI]⟩ with
        | none => []
        | some st => (rebuild st.par g.nodes.length eI).map
            (fun i => g.nodes.getD i "") := by
      unfold shortestPath
      rw [(nodeExists_iff g a).mpr ha, (nodeExists_iff g b).mpr hb,
        hfindA, hfindB]
      rfl
    have hR : bfsSearch getFriends g a b =
        match nameLoop (getFriends g) b (2 * g.nodes.length + 1)
            ⟨fun _ => none, fun y => if y = a then some 0 else none, [a]⟩ with
        | none => []
        | some st => rebuildName st.par g.nodes.length b := by
      unfold bfsSearch
      rw [if_pos ⟨ha, hb⟩]
    have hrel0 : IdxRel g
        ⟨fun _ => none, fun j => if j = sI then some 0 else none, [sI]⟩
        ⟨fun _ => none, fun y => if y = a then some 0 else none, [a]⟩ := by
      refine ⟨?_, ?_, ?_, ?_, ?_⟩
      · show [a] = [g.nodes.getD sI ""]
        rw [hgetA]
      · intro i hi
        have hisI : i = sI := by simpa using hi
        exact hisI ▸ hsI
      · intro i hilt
        show (if i = sI then some 0 else none) =
          (if g.nodes.getD i "" = a then some 0 else none)
        by_cases hisI : i = sI
        · rw [if_pos hisI, if_pos (by rw [hisI, hgetA])]
        · rw [if_neg hisI,
            if_neg (fun h => hisI (getD_inj hnd hilt hsI (by rw [h, hgetA])))]
      · intro i _
        rfl
      · intro i p h
        cases h
    have hcorr := loop_corr hnd hwfE2 heI (2 * g.nodes.length + 1) _ _ hrel0
    rw [hgetB] at hcorr
    rw [hL, hR]
    cases hI2 : bfsLoop g eI (2 * g.nodes.length + 1)
        ⟨fun _ => none, fun j => if j = sI then some 0 else none, [sI]⟩ with
    | none =>
      rw [hI2] at hcorr
      cases hN2 : nameLoop (getFriends g) b (2 * g.nodes.length + 1)
          ⟨fun _ => none, fun y => if y = a then some 0 else none, [a]⟩ with
      | none => rfl
      | some stN2 =>
        rw [hN2] at hcorr
        cases hcorr
    | some stI2 =>
      rw [hI2] at hcorr
      cases hN2 : nameLoop (getFriends g) b (2 * g.nodes.length + 1)
          ⟨fun _ => none, fun y => if y = a then some 0 else none, [a]⟩ with
      | none =>
        rw [hN2] at hcorr
        cases hcorr
      | some stN2 =>
        rw [hN2] at hcorr
        injection hcorr with h
  case neg =>
    have hex : (nodeExists g a && nodeExists g b) = false := by
      rw [Bool.and_eq_false_iff]
      by_cases ha : a ∈ g.nodes
      · refine Or.inr ?_
        rw [Bool.eq_false_iff]
        intro hbt
        exact hpres ⟨ha, (nodeExists_iff g b).mp hbt⟩
      · refine Or.inl ?_
        rw [Bool.eq_false_iff]
        intro hat
        exact ha ((nodeExists_iff g a).mp hat)
    have hL : shortestPath g a b = [] := by
      unfold shortestPath
      rw [hex]
      rfl
    have hR : bfsSearch getFriends g a b = [] := by
      unfold bfsSearch
      rw [if_neg hpres]
    rw [hL, hR]

/-- C4 amended: under the store invariant the code's shortest-path search
coincides with the specification BFS whose neighbor expansion at each step
follows the order `getFriends` yields — Friendship (edge) insertion
order.  The path chosen among several shortest ones is therefore
determined by edge insertion order, not by Person insertion order. -/
theorem shortestPath_uses_edge_insertion_order (g : SocialGraph)
    (hwf : WF g) (a b : String) :
    shortestPath g a b = shortestPathEdgeOrder g a b :=
  shortestPath_eq_bfsSearch g hwf a b

/-- Closed instance of the edge-order theorem on the diamond graph. -/
theorem shortestPath_uses_edge_insertion_order_witness :
    shortestPath ⟨["A", "B", "C", "D"],
        [("A", "C"), ("A", "B"), ("C", "D"), ("B", "D")]⟩ "A" "D" =
      shortestPathEdgeOrder ⟨["A", "B", "C", "D"],
        [("A", "C"), ("A", "B"), ("C", "D"), ("B", "D")]⟩ "A" "D" :=
  shortestPath_uses_edge_insertion_order _ (by decide) "A" "D"

/-- C5: under the store invariant, a nonempty result of `shortestPath`
starts at `from`, ends at `to`, steps only along friendships, and is no
longer than any friendship path between the two; the result is empty
exactly when an endpoint is unknown or no friendship path exists. -/
theorem shortestPath_correct (g : SocialGraph) (a b : String) (hwf : WF g) :
    (shortestPath g a b ≠ [] →
      (shortestPath g a b).head? = some a ∧
      (shortestPath g a b).getLast? = some b ∧
      List.Chain' (fun x y => areConnected g x y = true) (shortestPath g a b) ∧
      ∀ q, IsPathSeq g a b q → (shortestPath g a b).length ≤ q.length) ∧
    (shortestPath g a b = [] ↔
      (a ∉ g.nodes ∨ b ∉ g.nodes ∨ ¬∃ q, IsPathSeq g a b q)) := by
  rw [shortestPath_eq_bfsSearch g hwf a b]
  exact bfsSearch_correct getFriends g hwf.2.1
    (fun c m => mem_getFriends_wf hwf.2.1 c m) a b

/-- Closed instance of the shortest-path correctness theorem on the
diamond graph. -/
theorem shortestPath_correct_witness :
    (shortestPath ⟨["A", "B", "C", "D"],
        [("A", "C"), ("A", "B"), ("C", "D"), ("B", "D")]⟩ "A" "D").head? =
      some "A" :=
  ((shortestPath_correct ⟨["A", "B", "C", "D"],
      [("A", "C"), ("A", "B"), ("C", "D"), ("B", "D")]⟩ "A" "D"
    (by decide)).1 (by decide)).1
